import Mathlib

/-!
Verification of the core concurrent unique-insert hash table of sylvan
(`src/llmsset.c`).  The C code is shallowly embedded: machine words are `Nat`
with explicit `% 2^64` where overflow matters, the per-slot bitmaps are
modelled as `Nat → Bool` indexed by slot number (the C stores them MSB-first in
64-bit words, so the word/mask arithmetic `ptr[i/64] & (0x8000… >> (i&63))`
denotes exactly the bit of slot `i`), and the quiesced (single-thread) runs the
specification quantifies over are modelled by a sequential semantics in which
every CAS succeeds (no concurrent writer exists at a quiescent point).
Fallible loops whose bound is data-dependent take an explicit fuel that
provably exceeds the number of iterations the C code can perform.
-/

set_option maxRecDepth 20000

/-- The modulus of 64-bit machine words. -/
def U64 : Nat := 2 ^ 64

/-- Low 44 bits of a directory slot: the payload index (`#define MASK_INDEX`). -/
def MASK_INDEX : Nat := 0x00000fffffffffff

/-- High 20 bits of a directory slot: the hash tag (`#define MASK_HASH`). -/
def MASK_HASH : Nat := 0xfffff00000000000

/-- Directory slots per cache line, with `LINE_SIZE = 64`. -/
def HASH_PER_CL : Nat := 8

/-- The 64-bit value of `~(LINE_SIZE/8 - 1)`, i.e. `0xFFFFFFFFFFFFFFF8`. -/
def CL_MASK : Nat := U64 - 8

/-- The value `LINE_SIZE/8 - 1 = 7` (`CL_MASK_R`). -/
def CL_MASK_R : Nat := 7

/-- 64-bit rotate left (`rotl64` in the source), for `x < 2^64`, `0 < r < 64`. -/
def rotl64 (x : Nat) (r : Nat) : Nat :=
  ((x <<< r) % U64) ||| (x >>> (64 - r))

/-- The multiplier `1099511628211` (the local `prime` of `rehash16_mul`). -/
def fnvPrime : Nat := 1099511628211

/-- The seed `14695981039346656037` fed to the first mix of every lookup. -/
def fnvSeed : Nat := 14695981039346656037

/-- The default mixer `rehash16_mul(a, b, seed)` of the source, on 64-bit
words modelled as `Nat` reduced `% 2^64` after each multiplication. -/
def rehash16_mul (a b seed : Nat) : Nat :=
  let h1 := seed ^^^ a
  let h2 := rotl64 h1 47
  let h3 := (h2 * fnvPrime) % U64
  let h4 := h3 ^^^ b
  let h5 := rotl64 h4 31
  let h6 := (h5 * fnvPrime) % U64
  h6 ^^^ (h6 >>> 32)

/-- State of one `llmsset` table.  `table` is the directory (one 64-bit word
per slot), `data` the payload store (one `(a,b)` pair per index); `bitmap1`
holds the region-ownership bits, `bitmap2` the occupancy/mark bits, `bitmap3`
the notify-on-death bits.  The callbacks are pure models of the C function
pointers (`NULL` is `none`).  `maskMode` is the compile-time `LLMSSET_MASK`
flag and `mask` the field kept equal to `table_size - 1` by `llmsset_set_size`.
`threshold` is the probe budget in cache lines. -/
structure LLMSSet where
  table_size : Nat
  threshold : Nat
  maskMode : Bool
  mask : Nat
  table : Nat → Nat
  data : Nat → Nat × Nat
  bitmap1 : Nat → Bool
  bitmap2 : Nat → Bool
  bitmap3 : Nat → Bool
  hash_cb : Option (Nat → Nat → Nat → Nat)
  equals_cb : Option (Nat → Nat → Nat → Nat → Bool)
  dead_cb : Option (Nat → Bool)

/-- Thread-local worker context: the Lace worker id and count, and the
thread-local `my_region` (the sentinel "no region" is the 64-bit `-1`). -/
structure WorkerCtx where
  worker_id : Nat
  workers : Nat
  my_region : Nat

/-- Set the `bitmap1` (region ownership) bit of region `r`. -/
def setBit1 (s : LLMSSet) (r : Nat) : LLMSSet :=
  { s with bitmap1 := fun j => if j = r then true else s.bitmap1 j }

/-- Set the `bitmap2` (occupancy) bit of slot `i`. -/
def setBit2 (s : LLMSSet) (i : Nat) : LLMSSet :=
  { s with bitmap2 := fun j => if j = i then true else s.bitmap2 j }

/-- Clear the `bitmap2` (occupancy) bit of slot `i`. -/
def clearBit2 (s : LLMSSet) (i : Nat) : LLMSSet :=
  { s with bitmap2 := fun j => if j = i then false else s.bitmap2 j }

/-- Set the `bitmap3` (notify) bit of slot `i`. -/
def setBit3 (s : LLMSSet) (i : Nat) : LLMSSet :=
  { s with bitmap3 := fun j => if j = i then true else s.bitmap3 j }

/-- Clear the `bitmap3` (notify) bit of slot `i`. -/
def clearBit3 (s : LLMSSet) (i : Nat) : LLMSSet :=
  { s with bitmap3 := fun j => if j = i then false else s.bitmap3 j }

/-- Write directory slot `idx` (the CAS publication, which succeeds in the
sequential semantics). -/
def setSlot (s : LLMSSet) (idx v : Nat) : LLMSSet :=
  { s with table := fun j => if j = idx then v else s.table j }

/-- Write the payload pair of index `i` (`d_ptr[0] = a; d_ptr[1] = b;`). -/
def writeData (s : LLMSSet) (i a b : Nat) : LLMSSet :=
  { s with data := fun j => if j = i then (a, b) else s.data j }

/-- Number of allocation regions: `table_size / (64*8)` (512 slots each). -/
def numRegions (s : LLMSSet) : Nat := s.table_size / (64 * 8)

/-- `release_data_bucket`: clear the occupancy bit of `index`. -/
def release_data_bucket (s : LLMSSet) (index : Nat) : LLMSSet :=
  clearBit2 s index

/-- `set_custom_bucket`: set (`on = true`) or clear (`on = false`) the
`bitmap2` bit of `index`. -/
def set_custom_bucket (s : LLMSSet) (index : Nat) (onb : Bool) : LLMSSet :=
  if onb then setBit2 s index else clearBit2 s index

/-- `get_custom_bucket`: read the `bitmap2` bit of `index`. -/
def get_custom_bucket (s : LLMSSet) (index : Nat) : Bool :=
  s.bitmap2 index

/-- The scan of the owned region in `claim_data_bucket`: walk the 8 bitmap2
words of region `r` for a zero bit.  Word order and MSB-first bit order make
this the smallest slot index in `[512r, 512r + 512)` whose occupancy bit is
clear (`__builtin_clzl(~v)` picks the highest-order zero bit of `v`). -/
def findClearInRegion (s : LLMSSet) (r : Nat) : Option Nat :=
  ((List.range 512).find? (fun j => !(s.bitmap2 (r * 512 + j)))).map
    (fun j => r * 512 + j)

/-- One step of the region search: `my_region += 1` on the 64-bit local,
wrapped to `0` when it reaches `table_size/(64*8)`. -/
def nextRegion (s : LLMSSet) (m : Nat) : Nat :=
  let m1 := (m + 1) % U64
  if numRegions s ≤ m1 then 0 else m1

/-- The inner `for(;;)` of `claim_data_bucket`: starting after local region
value `m` with `count` attempts left, find an unowned region in `bitmap1`,
claim it (the CAS succeeds sequentially) and return the updated state and the
claimed region; `none` when `count` runs out (table full). -/
def regionSearch (s : LLMSSet) : Nat → Nat → Option (LLMSSet × Nat)
  | _, 0 => none
  | m, count + 1 =>
    let m1 := nextRegion s m
    if s.bitmap1 m1 then regionSearch s m1 count
    else some (setBit1 s m1, m1)

/-- The starting point of the region search for a worker whose thread-local
`my_region` still holds the sentinel `(uint64_t)-1`: the source adds
`(worker * (table_size/(64*8))) / workers` to the sentinel in 64-bit
arithmetic. -/
def freshRegionStart (wid wk ts : Nat) : Nat :=
  ((U64 - 1) + wid * (ts / (64 * 8)) / wk) % U64

/-- The outer `for(;;)` of `claim_data_bucket`.  `m` is the local copy of the
thread-local `my_region`; `st` is the value currently stored in the
thread-local cell (`SET_THREAD_LOCAL` runs only after a region is claimed, so
a failing call leaves the stored value as it was).  Each iteration either
returns or claims a previously unowned region, so `numRegions s + 2` fuel is
never exhausted. -/
def claimGo (wid wk : Nat) : Nat → LLMSSet → Nat → Nat → Option Nat × LLMSSet × Nat
  | 0, s, _, st => (none, s, st)
  | fuel + 1, s, m, st =>
    if m ≠ U64 - 1 then
      match findClearInRegion s m with
      | some j => (some j, setBit2 s j, st)
      | none =>
        match regionSearch s m (numRegions s) with
        | none => (none, s, st)
        | some (s1, m1) => claimGo wid wk fuel s1 m1 m1
    else
      let m0 := freshRegionStart wid wk s.table_size
      match regionSearch s m0 (numRegions s) with
      | none => (none, s, st)
      | some (s1, m1) => claimGo wid wk fuel s1 m1 m1

/-- `claim_data_bucket`: allocate a fresh payload slot.  Returns the claimed
index (`none` models the `(uint64_t)-1` "table full" return), the updated
table state, and the worker context with its stored `my_region`. -/
def claim_data_bucket (s : LLMSSet) (ctx : WorkerCtx) :
    Option Nat × LLMSSet × WorkerCtx :=
  let r := claimGo ctx.worker_id ctx.workers (numRegions s + 2) s ctx.my_region
    ctx.my_region
  (r.1, r.2.1, { ctx with my_region := r.2.2 })

/-- One application of the in-line probe step
`idx = (idx & CL_MASK) | ((idx+1) & CL_MASK_R)`. -/
def clStep (idx : Nat) : Nat :=
  (idx &&& CL_MASK) ||| ((idx + 1) &&& CL_MASK_R)

/-- One mixing step: the custom hash callback when `custom`, else the default
mixer (the custom path is only exercised with a registered callback; `getD`
supplies an inert default to keep the model total). -/
def hashStep (s : LLMSSet) (custom : Bool) (a b h : Nat) : Nat :=
  if custom then (s.hash_cb.getD (fun _ _ _ => 0)) a b h
  else rehash16_mul a b h

/-- The starting directory index of a probe line: `hash & mask` under
`LLMSSET_MASK`, else `hash % table_size`. -/
def firstIdx (s : LLMSSet) (h : Nat) : Nat :=
  if s.maskMode then h &&& s.mask else h % s.table_size

/-- The equality test of the lookup loop: the custom `equals_cb` on the stored
pair when `custom`, else word equality `d_ptr[0] == a && d_ptr[1] == b`. -/
def payloadMatches (s : LLMSSet) (custom : Bool) (a b d : Nat) : Bool :=
  if custom then
    (s.equals_cb.getD (fun _ _ _ _ => false)) a b (s.data d).1 (s.data d).2
  else ((s.data d).1 == a && (s.data d).2 == b)

/-- Outcome of a lookup: the two `return 0` sites of `llmsset_lookup2` are
told apart (`full` = probe budget exhausted, `nospace` = no payload slot could
be claimed); the C function returns `0` for both and the index otherwise. -/
inductive LKOut where
  | full : LKOut
  | nospace : LKOut
  | ok (idx : Nat) (created : Bool) : LKOut
deriving DecidableEq, Repr

/-- Result of a lookup: outcome plus the updated table state and context. -/
structure LKRes where
  out : LKOut
  st : LLMSSet
  ctx : WorkerCtx

/-- Result of scanning one cache line: a final lookup result, or `next` when
the in-line index wrapped back to `last` (fall through to the next line). -/
inductive LineRes where
  | done (out : LKOut) (s : LLMSSet) (ctx : WorkerCtx)
  | next (s : LLMSSet) (ctx : WorkerCtx) (cidx : Nat)

/-- The per-slot body and in-line walk of the probe loop of
`llmsset_lookup2`, scanning the cache line that starts at `last`.  `cidx = 0`
means no payload slot is reserved yet.  On an empty slot the code claims a
bucket (if needed), writes the payload, and publishes by CAS — which succeeds
in the sequential semantics, so the CAS-failure re-read is unreachable.  The
fuel `k` starts at `HASH_PER_CL = 8`, and the line wraps to `last` after
exactly 8 steps, so fuel 0 is never reached. -/
def scanLine (a b : Nat) (custom : Bool) (hash last : Nat) :
    Nat → Nat → Nat → LLMSSet → WorkerCtx → LineRes
  | 0, _, _, s, ctx => .done .full s ctx
  | k + 1, idx, cidx, s, ctx =>
    let v := s.table idx
    if v = 0 then
      let cr := if cidx = 0 then claim_data_bucket s ctx else (some cidx, s, ctx)
      match cr.1 with
      | none => .done .nospace cr.2.1 cr.2.2
      | some c =>
        let s1 := if cidx = 0 then writeData cr.2.1 c a b else cr.2.1
        let s2 := setSlot s1 idx (hash ||| c)
        let s3 := if custom || s2.hash_cb.isSome then set_custom_bucket s2 c custom
          else s2
        .done (.ok c true) s3 cr.2.2
    else if hash = v &&& MASK_HASH ∧ payloadMatches s custom a b (v &&& MASK_INDEX) = true
    then
      let s1 := if cidx ≠ 0 then release_data_bucket s cidx else s
      .done (.ok (v &&& MASK_INDEX) false) s1 ctx
    else
      let idx1 := clStep idx
      if idx1 = last then .next s ctx cidx
      else scanLine a b custom hash last k idx1 cidx s ctx

/-- The outer structure of `llmsset_lookup2`: scan one cache line per
iteration, re-mixing the hash between lines; `lines` is the number of rehash
rounds still allowed after the current line (`threshold - 1 - i`), so `0`
means `++i == dbs->threshold` fires and the lookup returns `0`. -/
def lookupLines (a b : Nat) (custom : Bool) (hash : Nat) :
    Nat → Nat → Nat → LLMSSet → WorkerCtx → LKRes
  | lines, hr, cidx, s, ctx =>
    match scanLine a b custom hash (firstIdx s hr) 8 (firstIdx s hr) cidx s ctx with
    | .done out s1 ctx1 => ⟨out, s1, ctx1⟩
    | .next s1 ctx1 cidx1 =>
      match lines with
      | 0 => ⟨.full, s1, ctx1⟩
      | l + 1 => lookupLines a b custom hash l (hashStep s1 custom a b hr) cidx1 s1 ctx1

/-- `llmsset_lookup2`: mix the seed once, fix the 20-bit tag from that first
hash, and run the probe starting at its line. -/
def llmsset_lookup2 (s : LLMSSet) (ctx : WorkerCtx) (a b : Nat) (custom : Bool) :
    LKRes :=
  let hr0 := hashStep s custom a b fnvSeed
  lookupLines a b custom (hr0 &&& MASK_HASH) (s.threshold - 1) hr0 0 s ctx

/-- `llmsset_lookup`: the default-hash path. -/
def llmsset_lookup (s : LLMSSet) (ctx : WorkerCtx) (a b : Nat) : LKRes :=
  llmsset_lookup2 s ctx a b false

/-- `llmsset_lookupc`: the custom-callback path. -/
def llmsset_lookupc (s : LLMSSet) (ctx : WorkerCtx) (a b : Nat) : LKRes :=
  llmsset_lookup2 s ctx a b true

/-- `llmsset_is_marked`: read the `bitmap2` bit of `index`. -/
def llmsset_is_marked (s : LLMSSet) (index : Nat) : Bool :=
  s.bitmap2 index

/-- `llmsset_mark`: atomically set the `bitmap2` bit of `index`; the result
reports whether this call was the one that set it. -/
def llmsset_mark (s : LLMSSet) (index : Nat) : Bool × LLMSSet :=
  if s.bitmap2 index then (false, s) else (true, setBit2 s index)

/-- Result of one cache-line walk of `llmsset_rehash_bucket`. -/
inductive RLineRes where
  | done (ok : Bool) (s : LLMSSet)
  | next (s : LLMSSet)

/-- The in-line walk of `llmsset_rehash_bucket`: write `new_v` into the first
empty slot of the line starting at `last` (the GC rehash phase has no
concurrent inserters, so the CAS succeeds). -/
def rehashScanLine (new_v last : Nat) : Nat → Nat → LLMSSet → RLineRes
  | 0, _, s => .done false s
  | k + 1, idx, s =>
    if s.table idx = 0 then .done true (setSlot s idx new_v)
    else
      let idx1 := clStep idx
      if idx1 = last then .next s
      else rehashScanLine new_v last k idx1 s

/-- The outer line loop of `llmsset_rehash_bucket`, re-mixing between lines;
`lines = 0` left means the probe budget is exhausted (`return 0`). -/
def rehashLines (a b : Nat) (custom : Bool) (new_v : Nat) :
    Nat → Nat → LLMSSet → Bool × LLMSSet
  | lines, hr, s =>
    match rehashScanLine new_v (firstIdx s hr) 8 (firstIdx s hr) s with
    | .done ok s1 => (ok, s1)
    | .next s1 =>
      match lines with
      | 0 => (false, s1)
      | l + 1 => rehashLines a b custom new_v l (hashStep s1 custom a b hr) s1

/-- `llmsset_rehash_bucket`: re-insert the payload of index `d_idx` into the
directory, choosing the custom mixer when a hash callback is registered and
the `bitmap2` overlay bit of `d_idx` is set. -/
def llmsset_rehash_bucket (s : LLMSSet) (d_idx : Nat) : Bool × LLMSSet :=
  let a := (s.data d_idx).1
  let b := (s.data d_idx).2
  let custom := s.hash_cb.isSome && get_custom_bucket s d_idx
  let hr0 := hashStep s custom a b fnvSeed
  let new_v := (hr0 &&& MASK_HASH) ||| d_idx
  rehashLines a b custom new_v (s.threshold - 1) hr0 s

/-- Serial leaf of `llmsset_rehash_par`: rehash every index of
`[first, first+count)` whose `bitmap2` bit is set, conjoining the
`rehash_bucket` results (the C discards them; the flag identifies a run in
which every re-insert found a slot). -/
def rehashSerialLoop (s : LLMSSet) (first count : Nat) : Bool × LLMSSet :=
  (List.range count).foldl
    (fun p k =>
      if p.2.bitmap2 (first + k) then
        let q := llmsset_rehash_bucket p.2 (first + k)
        (p.1 && q.1, q.2)
      else p)
    (true, s)

/-- `llmsset_rehash_par` under the sequential elaboration of SPAWN/CALL/SYNC:
ranges whose `count` exceeds 1024 are split in half, smaller ranges run the
serial loop.  The recursion is driven by a structural fuel so that the model
computes in the kernel; each split at least halves `count` while fuel drops by
one, so any `fuel ≥ count` (in particular the `count` used below) is never
exhausted. -/
def rehashParGo : Nat → LLMSSet → Nat → Nat → Bool × LLMSSet
  | 0, s, first, count => rehashSerialLoop s first count
  | fuel + 1, s, first, count =>
    if 1024 < count then
      let split := count / 2
      let r1 := rehashParGo fuel s first split
      let r2 := rehashParGo fuel r1.2 (first + split) (count - split)
      (r1.1 && r2.1, r2.2)
    else rehashSerialLoop s first count

/-- `llmsset_rehash_par` on a range. -/
def llmsset_rehash_par (s : LLMSSet) (first count : Nat) : Bool × LLMSSet :=
  rehashParGo count s first count

/-- `llmsset_rehash`: rehash the whole table. -/
def llmsset_rehash (s : LLMSSet) : Bool × LLMSSet :=
  llmsset_rehash_par s 0 s.table_size

/-- `llmsset_clear`: zero the directory, the region-owner bitmap and the
occupancy bitmap (by fixed remap or `memset`), then re-forbid slots 0 and 1
(`bitmap2[0] = 0xc000…`).  The per-worker `my_region` reset of the
`TOGETHER(llmsset_reset_region)` is `llmsset_clear_ctx`. -/
def llmsset_clear (s : LLMSSet) : LLMSSet :=
  { s with table := fun _ => 0,
           bitmap1 := fun _ => false,
           bitmap2 := fun i => decide (i < 2) }

/-- The per-worker effect of `llmsset_clear`: `my_region` back to the
sentinel. -/
def llmsset_clear_ctx (ctx : WorkerCtx) : WorkerCtx :=
  { ctx with my_region := U64 - 1 }

/-- Serial body of `llmsset_count_marked_par`: count the set `bitmap2` bits in
`[first, first+count)` (the C walks the bitmap words with a shifting MSB-first
mask, which visits exactly the bits of indices `first+k`). -/
def countSerialLoop (s : LLMSSet) (first count : Nat) : Nat :=
  (List.range count).foldl
    (fun r k => if s.bitmap2 (first + k) then r + 1 else r) 0

/-- `llmsset_count_marked_par`: divide and conquer with serial leaves of at
most 1024 indices, summing at each join.  Structural fuel as in
`rehashParGo`. -/
def countMarkedParGo (s : LLMSSet) : Nat → Nat → Nat → Nat
  | 0, first, count => countSerialLoop s first count
  | fuel + 1, first, count =>
    if 1024 < count then
      let split := count / 2
      countMarkedParGo s fuel first split +
        countMarkedParGo s fuel (first + split) (count - split)
    else countSerialLoop s first count

/-- `llmsset_count_marked_par` on a range. -/
def llmsset_count_marked_par (s : LLMSSet) (first count : Nat) : Nat :=
  countMarkedParGo s count first count

/-- `llmsset_count_marked`: count over the whole table. -/
def llmsset_count_marked (s : LLMSSet) : Nat :=
  llmsset_count_marked_par s 0 s.table_size

/-- `llmsset_set_ondead`: register the dead callback. -/
def llmsset_set_ondead (s : LLMSSet) (cb : Option (Nat → Bool)) : LLMSSet :=
  { s with dead_cb := cb }

/-- `llmsset_notify_ondead`: set the `bitmap3` bit of `index`. -/
def llmsset_notify_ondead (s : LLMSSet) (index : Nat) : LLMSSet :=
  setBit3 s index

/-- The per-index body of the notify sweep: where the occupancy bit is clear
but the notify bit is set, call the dead callback; `true` resurrects the slot
(set `bitmap2`), otherwise the notify bit is cleared. -/
def notifyStep (cb : Nat → Bool) (s : LLMSSet) (k : Nat) : LLMSSet :=
  if !s.bitmap2 k && s.bitmap3 k then
    if cb k then setBit2 s k else clearBit3 s k
  else s

/-- `llmsset_notify_par` under the sequential elaboration: halves above 1024
indices, serial loop below.  Structural fuel as in `rehashParGo`. -/
def notifyParGo (cb : Nat → Bool) : Nat → LLMSSet → Nat → Nat → LLMSSet
  | 0, s, first, count =>
    (List.range count).foldl (fun t k => notifyStep cb t (first + k)) s
  | fuel + 1, s, first, count =>
    if 1024 < count then
      let split := count / 2
      let s1 := notifyParGo cb fuel s first split
      notifyParGo cb fuel s1 (first + split) (count - split)
    else (List.range count).foldl (fun t k => notifyStep cb t (first + k)) s

/-- `llmsset_notify_par` on a range. -/
def llmsset_notify_par (cb : Nat → Bool) (s : LLMSSet) (first count : Nat) :
    LLMSSet :=
  notifyParGo cb count s first count

/-- `llmsset_notify_all`: a no-op without a registered callback, else the
sweep over the whole table. -/
def llmsset_notify_all (s : LLMSSet) : LLMSSet :=
  match s.dead_cb with
  | none => s
  | some cb => llmsset_notify_par cb s 0 s.table_size

/-- `llmsset_set_custom`: register the custom hash and equality callbacks. -/
def llmsset_set_custom (s : LLMSSet)
    (hcb : Nat → Nat → Nat → Nat) (ecb : Nat → Nat → Nat → Nat → Bool) : LLMSSet :=
  { s with hash_cb := some hcb, equals_cb := some ecb }

/-- The table state right after `llmsset_create(sz, sz)`: all mappings are
anonymous zero pages, then `bitmap2[0] = 0xc000…` forbids slots 0 and 1.  The
probe budget `thr` is set by `llmsset_set_size`, which lives outside this
translation unit, so it is a parameter here. -/
def llmsset_create_state (sz thr : Nat) : LLMSSet :=
  { table_size := sz
    threshold := thr
    maskMode := false
    mask := sz - 1
    table := fun _ => 0
    data := fun _ => (0, 0)
    bitmap1 := fun _ => false
    bitmap2 := fun i => decide (i < 2)
    bitmap3 := fun _ => false
    hash_cb := none
    equals_cb := none
    dead_cb := none }

/-- A fresh worker context (`llmsset_init_worker`): `my_region` holds the
sentinel `(uint64_t)-1`. -/
def freshCtx (wid wk : Nat) : WorkerCtx :=
  { worker_id := wid, workers := wk, my_region := U64 - 1 }

/-- The rotate of the mixer as the specification words it: rotate the 64-bit
value `x` left by `r`. -/
def specRotl (x r : Nat) : Nat :=
  ((x <<< r) ||| (x >>> (64 - r))) % 2 ^ 64

/-- The mixer exactly as §4.1 of the specification spells it: starting from
seed `14695981039346656037`, xor `a`, rotate left 47, multiply by
`1099511628211`, xor `b`, rotate left 31, multiply again, and fold the high
word down (`h ⊕ (h >> 32)`); every step on 64-bit words. -/
def specMixer (a b : Nat) : Nat :=
  let p := 1099511628211
  let h1 := 14695981039346656037 ^^^ a
  let h2 := specRotl h1 47
  let h3 := h2 * p % 2 ^ 64
  let h4 := h3 ^^^ b
  let h5 := specRotl h4 31
  let h6 := h5 * p % 2 ^ 64
  h6 ^^^ h6 >>> 32

/-- The ground-truth serial count of set mark bits over `[0, table_size)`,
as §8.7 of the specification describes it. -/
def countMarkedSerialSpec (s : LLMSSet) : Nat :=
  ((List.range s.table_size).filter (fun i => s.bitmap2 i)).length

/-- The equality test of the probe loop applied to an explicit pair `(x, y)`
rather than to a stored slot: `payloadMatches s custom a b d` is
`matchesPair s custom a b (s.data d).1 (s.data d).2`. -/
def matchesPair (s : LLMSSet) (custom : Bool) (a b x y : Nat) : Bool :=
  if custom then (s.equals_cb.getD (fun _ _ _ _ => false)) a b x y
  else (x == a && y == b)

/-- The table well-formedness facts the lookup theorems run on: a legal size
(`llmsset_create` refuses anything below 512; 44-bit indices bound the size
from above), the mask kept in sync in mask mode, the two reserved occupancy
bits, and the occupancy-consistency fact for every non-empty directory slot. -/
structure TblInv (s : LLMSSet) : Prop where
  ts_ge : 512 ≤ s.table_size
  ts_le : s.table_size ≤ 2 ^ 44
  mask_eq : s.maskMode = true → s.mask = s.table_size - 1
  b2_zero : s.bitmap2 0 = true
  b2_one : s.bitmap2 1 = true
  tbl_b2 : ∀ q, s.table q ≠ 0 → s.bitmap2 (s.table q &&& MASK_INDEX) = true

/-- A worker context is sane when its thread-local region is the sentinel or
an existing region. -/
def CtxOk (s : LLMSSet) (ctx : WorkerCtx) : Prop :=
  ctx.my_region = U64 - 1 ∨ ctx.my_region < numRegions s

/-- The configuration fields (size, probe budget, mask, callbacks) of `t`
agree with those of `s`. -/
def SameCfg (s t : LLMSSet) : Prop :=
  t.table_size = s.table_size ∧ t.threshold = s.threshold ∧
  t.maskMode = s.maskMode ∧ t.mask = s.mask ∧ t.hash_cb = s.hash_cb ∧
  t.equals_cb = s.equals_cb ∧ t.dead_cb = s.dead_cb

/-- A probed slot either misses the target (possibly empty) or carries it:
the slot is non-empty, and a tag match together with a payload match pins the
slot's index field to `i`.  This is the per-slot fact a second lookup of the
same payload relies on. -/
def slotTargeted (t : LLMSSet) (custom : Bool) (a b hash i q : Nat) : Prop :=
  t.table q ≠ 0 ∧
    (hash = t.table q &&& MASK_HASH →
      payloadMatches t custom a b (t.table q &&& MASK_INDEX) = true →
      t.table q &&& MASK_INDEX = i)

/-- A freshly created size-512 table with probe budget 2 (example state for
the concrete scenarios). -/
def egTable512 : LLMSSet := llmsset_create_state 512 2

/-- Worker 0 of 1, fresh. -/
def egCtx : WorkerCtx := freshCtx 0 1

/-- A size-4096 table (example state for the allocator-bias scenario). -/
def egTable4096 : LLMSSet := llmsset_create_state 4096 2

/-- The size-512 table with custom callbacks registered (the custom hash is
the default mixer and the custom equality is word equality, which keeps the
scenario faithful while exercising the callback plumbing). -/
def egTableCustom : LLMSSet :=
  llmsset_set_custom egTable512 (fun a b h => rehash16_mul a b h)
    (fun a b x y => a == x && b == y)

/-- A small table for the notify sweep scenario: 16 slots, notify bits on
slots 5, 6 and 7, slot 6 still occupied, dead callback keeping only slot 5. -/
def egTableNotify : LLMSSet :=
  { table_size := 16
    threshold := 2
    maskMode := false
    mask := 15
    table := fun _ => 0
    data := fun _ => (0, 0)
    bitmap1 := fun _ => false
    bitmap2 := fun i => decide (i < 2) || decide (i = 6)
    bitmap3 := fun i => decide (i = 5) || decide (i = 6) || decide (i = 7)
    hash_cb := none
    equals_cb := none
    dead_cb := some (fun k => k == 5) }

/-- The dead callback of `egTableNotify`. -/
def egNotifyCb : Nat → Bool := fun k => k == 5

/-- A small table for the GC round-trip scenario: 16 slots, payload `(7, 11)`
sitting in the data array at index 2 (table contents are irrelevant, the
round trip starts with `clear`). -/
def egTableRoundtrip : LLMSSet :=
  writeData (llmsset_create_state 16 2) 2 7 11

/-- The fold body of `rehashSerialLoop`, named for the splitting lemmas. -/
def rehashBody (first : Nat) (p : Bool × LLMSSet) (k : Nat) : Bool × LLMSSet :=
  if p.2.bitmap2 (first + k) then
    let q := llmsset_rehash_bucket p.2 (first + k)
    (p.1 && q.1, q.2)
  else p

/-- The state carried by a rehash line result. -/
def rlState : RLineRes → LLMSSet
  | .done _ s => s
  | .next s => s

/-- The C4 scenario in the order the claim prescribes (populate with
`(7, 11)`, mark the returned index, then `clear`): the clear wipes the mark
bits, so the subsequent rehash has nothing to restore. -/
def egC4Cleared : LLMSSet :=
  llmsset_clear (llmsset_mark (llmsset_lookup egTable512 egCtx 7 11).st 2).2

/-- Mark every index of `M` in turn with `llmsset_mark` (the GC trace of the
set of live payload indices). -/
def markAll (s : LLMSSet) (M : List Nat) : LLMSSet :=
  M.foldl (fun t j => (llmsset_mark t j).2) s

/-! ### Arithmetic facts about masks, rotation and the cache-line step -/

theorem maskIndex_eq : MASK_INDEX = 2 ^ 44 - 1 := by norm_num [MASK_INDEX]

theorem maskHash_eq : MASK_HASH = (2 ^ 20 - 1) <<< 44 := by
  norm_num [MASK_HASH, Nat.shiftLeft_eq]

theorem clmask_eq : CL_MASK = (2 ^ 61 - 1) <<< 3 := by
  norm_num [CL_MASK, U64, Nat.shiftLeft_eq]

theorem testBit_maskIndex (i : Nat) : MASK_INDEX.testBit i = decide (i < 44) := by
  rw [maskIndex_eq, Nat.testBit_two_pow_sub_one]

theorem testBit_maskHash (i : Nat) :
    MASK_HASH.testBit i = (decide (44 ≤ i) && decide (i < 64)) := by
  rw [maskHash_eq, Nat.testBit_shiftLeft, Nat.testBit_two_pow_sub_one]
  by_cases h : 44 ≤ i
  · have : (i - 44 < 20) = (i < 64) := by
      apply propext; omega
    simp [ge_iff_le, h, this]
  · simp [ge_iff_le, h]

theorem testBit_clmask (i : Nat) :
    CL_MASK.testBit i = (decide (3 ≤ i) && decide (i < 64)) := by
  rw [clmask_eq, Nat.testBit_shiftLeft, Nat.testBit_two_pow_sub_one]
  by_cases h : 3 ≤ i
  · have : (i - 3 < 61) = (i < 64) := by apply propext; omega
    simp [ge_iff_le, h, this]
  · simp [ge_iff_le, h]

theorem testBit_high_false {x i : Nat} (hx : x < 2 ^ 44) (hi : 44 ≤ i) :
    x.testBit i = false :=
  Nat.testBit_lt_two_pow
    (lt_of_lt_of_le hx (Nat.pow_le_pow_right (by norm_num) hi))

theorem testBit_word_false {x i : Nat} (hx : x < U64) (hi : 64 ≤ i) :
    x.testBit i = false :=
  Nat.testBit_lt_two_pow
    (lt_of_lt_of_le hx (Nat.pow_le_pow_right (by norm_num) hi))

theorem land_maskIndex (x : Nat) : x &&& MASK_INDEX = x % 2 ^ 44 := by
  rw [maskIndex_eq, Nat.and_pow_two_sub_one_eq_mod]

theorem land_maskIndex_lt (x : Nat) : x &&& MASK_INDEX < 2 ^ 44 := by
  rw [land_maskIndex]; exact Nat.mod_lt _ (by norm_num)

theorem masked_bit_eq {h i : Nat} (hh : h &&& MASK_HASH = h) :
    h.testBit i = (h.testBit i && (decide (44 ≤ i) && decide (i < 64))) := by
  conv_lhs => rw [← hh]
  rw [Nat.testBit_land, testBit_maskHash]

theorem masked_low_false {h i : Nat} (hh : h &&& MASK_HASH = h) (hi : i < 44) :
    h.testBit i = false := by
  rw [masked_bit_eq hh]
  simp [show ¬ (44 ≤ i) by omega]

theorem tag_lor_index {h c : Nat} (hh : h &&& MASK_HASH = h) (hc : c < 2 ^ 44) :
    (h ||| c) &&& MASK_INDEX = c := by
  apply Nat.eq_of_testBit_eq
  intro i
  rw [Nat.testBit_land, Nat.testBit_lor, testBit_maskIndex]
  by_cases hi : i < 44
  · simp [masked_low_false hh hi, hi]
  · simp [testBit_high_false hc (show 44 ≤ i by omega), hi]

theorem tag_lor_hash {h c : Nat} (hh : h &&& MASK_HASH = h) (hc : c < 2 ^ 44) :
    (h ||| c) &&& MASK_HASH = h := by
  apply Nat.eq_of_testBit_eq
  intro i
  rw [Nat.testBit_land, Nat.testBit_lor, testBit_maskHash]
  by_cases hi : i < 44
  · simp [masked_low_false hh hi, hi, show ¬ (44 ≤ i) by omega]
  · by_cases hi64 : i < 64
    · simp [testBit_high_false hc (show 44 ≤ i by omega), show 44 ≤ i by omega, hi64]
    · have hz : h.testBit i = false := by
        rw [masked_bit_eq hh]; simp [show ¬ (i < 64) by omega]
      simp [hz, testBit_high_false hc (show 44 ≤ i by omega)]

theorem land_maskHash_idem (x : Nat) :
    (x &&& MASK_HASH) &&& MASK_HASH = x &&& MASK_HASH := by
  rw [Nat.and_assoc, Nat.and_self]

theorem lor_ne_zero_right {h c : Nat} (hc : c ≠ 0) : h ||| c ≠ 0 := by
  intro he
  apply hc
  apply Nat.eq_of_testBit_eq
  intro i
  have := congrArg (fun t => t.testBit i) he
  simp only [Nat.testBit_lor, Nat.zero_testBit] at this ⊢
  rcases Bool.or_eq_false_iff.mp this with ⟨-, h2⟩
  exact h2

theorem mod_two_pow_lor (a b n : Nat) :
    (a ||| b) % 2 ^ n = (a % 2 ^ n) ||| (b % 2 ^ n) := by
  apply Nat.eq_of_testBit_eq
  intro i
  simp only [Nat.testBit_mod_two_pow, Nat.testBit_lor]
  by_cases hi : i < n <;> simp [hi]

theorem testBit_two_pow_mul_add {n b : Nat} (a : Nat) (hb : b < 2 ^ n) (i : Nat) :
    (2 ^ n * a + b).testBit i
      = if i < n then b.testBit i else a.testBit (i - n) := by
  by_cases hi : i < n
  · have hsplit : 2 ^ n * a = 2 ^ i * (2 ^ (n - i) * a) := by
      rw [← Nat.mul_assoc, ← Nat.pow_add]
      congr 2
      omega
    simp only [hi, if_true, Nat.testBit_to_div_mod]
    rw [hsplit, Nat.mul_add_div (Nat.two_pow_pos i)]
    have h2 : 2 ^ (n - i) * a = 2 * (2 ^ (n - i - 1) * a) := by
      rw [← Nat.mul_assoc]
      congr 1
      rw [← Nat.pow_succ']
      congr 1
      omega
    rw [h2, Nat.add_comm (2 * _) _, Nat.add_mul_mod_self_left]
  · simp only [hi, if_false, Nat.testBit_to_div_mod]
    have hsplit : 2 ^ i = 2 ^ n * 2 ^ (i - n) := by
      rw [← Nat.pow_add]
      congr 1
      omega
    rw [hsplit, ← Nat.div_div_eq_div_mul, Nat.mul_add_div (Nat.two_pow_pos n),
        Nat.div_eq_of_lt hb, Nat.add_zero]

theorem lor_two_pow_mul_add {n b : Nat} (a : Nat) (hb : b < 2 ^ n) :
    (2 ^ n * a) ||| b = 2 ^ n * a + b := by
  apply Nat.eq_of_testBit_eq
  intro i
  rw [Nat.testBit_lor, testBit_two_pow_mul_add a hb]
  have hmul : 2 ^ n * a = a <<< n := by rw [Nat.shiftLeft_eq, Nat.mul_comm]
  by_cases hi : i < n
  · simp [hi, hmul, Nat.testBit_shiftLeft, show ¬ (i ≥ n) by omega]
  · have hbz : b.testBit i = false :=
      Nat.testBit_lt_two_pow
        (lt_of_lt_of_le hb (Nat.pow_le_pow_right (by norm_num) (show n ≤ i by omega)))
    simp [hi, hmul, Nat.testBit_shiftLeft, show i ≥ n by omega, hbz]

theorem land_seven (x : Nat) : x &&& 7 = x % 8 := by
  have : (7 : Nat) = 2 ^ 3 - 1 := by norm_num
  rw [this, Nat.and_pow_two_sub_one_eq_mod]

theorem land_clmask {x : Nat} (hx : x < U64) : x &&& CL_MASK = 8 * (x / 8) := by
  apply Nat.eq_of_testBit_eq
  intro i
  rw [Nat.testBit_land, testBit_clmask]
  have hdiv : 8 * (x / 8) = (x / 8) <<< 3 := by
    rw [Nat.shiftLeft_eq, Nat.mul_comm]
  have hshift : x / 8 = x >>> 3 := by
    rw [Nat.shiftRight_eq_div_pow]
  rw [hdiv, Nat.testBit_shiftLeft, hshift, Nat.testBit_shiftRight]
  by_cases h3 : 3 ≤ i
  · have : 3 + (i - 3) = i := by omega
    rw [this]
    by_cases h64 : i < 64
    · simp [ge_iff_le, h3, h64]
    · simp [ge_iff_le, h3, h64, testBit_word_false hx (show 64 ≤ i by omega)]
  · simp [ge_iff_le, h3]

theorem clStep_eq {x : Nat} (hx : x < U64) :
    clStep x = 8 * (x / 8) + (x + 1) % 8 := by
  rw [clStep, land_clmask hx]
  show 8 * (x / 8) ||| ((x + 1) &&& CL_MASK_R) = _
  rw [show CL_MASK_R = 7 from rfl, land_seven]
  have h8 : (8 : Nat) = 2 ^ 3 := by norm_num
  rw [h8, lor_two_pow_mul_add _ (by omega)]

theorem clStep_lt {x : Nat} (hx : x < U64) : clStep x < U64 := by
  rw [clStep_eq hx]
  have h5 : x / 8 < 2 ^ 61 := by
    rw [Nat.div_lt_iff_lt_mul (by norm_num)]
    calc x < U64 := hx
    _ = 2 ^ 61 * 8 := by norm_num [U64]
  have h2 : (x + 1) % 8 < 8 := Nat.mod_lt _ (by norm_num)
  have hU : U64 = 8 * 2 ^ 61 := by norm_num [U64]
  omega

theorem clStep_iterate {x : Nat} (hx : x < U64) (n : Nat) :
    clStep^[n] x = 8 * (x / 8) + (x % 8 + n) % 8 := by
  induction n with
  | zero =>
    simp only [Function.iterate_zero, id_eq]
    omega
  | succ n ih =>
    rw [Function.iterate_succ_apply', ih]
    have h5 : x / 8 < 2 ^ 61 := by
      rw [Nat.div_lt_iff_lt_mul (by norm_num)]
      calc x < U64 := hx
      _ = 2 ^ 61 * 8 := by norm_num [U64]
    have hU : U64 = 8 * 2 ^ 61 := by norm_num [U64]
    have hlt : 8 * (x / 8) + (x % 8 + n) % 8 < U64 := by omega
    rw [clStep_eq hlt]
    omega

theorem clStep_iterate_eight {x : Nat} (hx : x < U64) : clStep^[8] x = x := by
  rw [clStep_iterate hx]
  omega

theorem clStep_iterate_ne {x : Nat} (hx : x < U64) {n : Nat} (h0 : 0 < n)
    (h8 : n < 8) : clStep^[n] x ≠ x := by
  rw [clStep_iterate hx]
  omega

theorem clStep_iterate_inj {x : Nat} (hx : x < U64) {m n : Nat} (hm : m < 8)
    (hn : n < 8) (hne : m ≠ n) : clStep^[m] x ≠ clStep^[n] x := by
  rw [clStep_iterate hx, clStep_iterate hx]
  omega

/-! ### The default mixer agrees with the specified mixer (C5) -/

theorem specRotl_eq_rotl64 {x : Nat} (hx : x < 2 ^ 64) (r : Nat) :
    specRotl x r = rotl64 x r := by
  unfold specRotl rotl64
  rw [show U64 = 2 ^ 64 from rfl, mod_two_pow_lor]
  congr 1
  apply Nat.mod_eq_of_lt
  exact lt_of_le_of_lt
    (by rw [Nat.shiftRight_eq_div_pow]; exact Nat.div_le_self _ _) hx

theorem rehash16_mul_lt (a b seed : Nat) : rehash16_mul a b seed < 2 ^ 64 := by
  unfold rehash16_mul
  apply Nat.xor_lt_two_pow
  · exact Nat.mod_lt _ (by norm_num [U64])
  · exact lt_of_le_of_lt
      (by rw [Nat.shiftRight_eq_div_pow]; exact Nat.div_le_self _ _)
      (Nat.mod_lt _ (by norm_num [U64]))

theorem rehash16_mul_eq_specMixer {a b : Nat} (ha : a < 2 ^ 64) (hb : b < 2 ^ 64) :
    rehash16_mul a b fnvSeed = specMixer a b := by
  have h1 : fnvSeed ^^^ a < 2 ^ 64 :=
    Nat.xor_lt_two_pow (by norm_num [fnvSeed]) ha
  have h4 : rotl64 (14695981039346656037 ^^^ a) 47 * 1099511628211 % 2 ^ 64 ^^^ b
      < 2 ^ 64 :=
    Nat.xor_lt_two_pow (Nat.mod_lt _ (by norm_num)) hb
  simp only [rehash16_mul, specMixer, fnvSeed, fnvPrime] at h1 ⊢
  rw [specRotl_eq_rotl64 h1]
  rw [show U64 = 2 ^ 64 from rfl]
  rw [specRotl_eq_rotl64 h4]

/-- C5: for every payload, the default hash used by `llmsset_lookup` equals
the specified mixer (seed `14695981039346656037`, rotate 47 / multiply /
rotate 31 / multiply / fold); the tag stored in directory slots is the top 20
bits of that value (`h &&& MASK_HASH = (h >>> 44) <<< 44`, and or-ing a 44-bit
index in does not disturb it), and the starting directory index is
`h & (table_size - 1)` in mask mode and `h % table_size` otherwise. -/
theorem C5_default_hash_spec (s : LLMSSet) (a b : Nat)
    (ha : a < 2 ^ 64) (hb : b < 2 ^ 64) :
    hashStep s false a b fnvSeed = specMixer a b ∧
    hashStep s false a b fnvSeed &&& MASK_HASH
      = (hashStep s false a b fnvSeed >>> 44) <<< 44 ∧
    (∀ c : Nat, c < 2 ^ 44 →
      ((hashStep s false a b fnvSeed &&& MASK_HASH) ||| c) &&& MASK_HASH
        = hashStep s false a b fnvSeed &&& MASK_HASH) ∧
    (s.maskMode = true → s.mask = s.table_size - 1 →
      firstIdx s (hashStep s false a b fnvSeed)
        = hashStep s false a b fnvSeed &&& (s.table_size - 1)) ∧
    (s.maskMode = false →
      firstIdx s (hashStep s false a b fnvSeed)
        = hashStep s false a b fnvSeed % s.table_size) := by
  have hdef : hashStep s false a b fnvSeed = rehash16_mul a b fnvSeed := by
    simp [hashStep]
  have hlt : hashStep s false a b fnvSeed < 2 ^ 64 := by
    rw [hdef]; exact rehash16_mul_lt a b fnvSeed
  refine ⟨by rw [hdef]; exact rehash16_mul_eq_specMixer ha hb, ?_, ?_, ?_, ?_⟩
  · apply Nat.eq_of_testBit_eq
    intro i
    rw [Nat.testBit_land, testBit_maskHash, Nat.testBit_shiftLeft,
        Nat.testBit_shiftRight]
    by_cases h44 : 44 ≤ i
    · have : 44 + (i - 44) = i := by omega
      rw [this]
      by_cases h64 : i < 64
      · simp [ge_iff_le, h44, h64]
      · simp [ge_iff_le, h44, h64, testBit_word_false hlt (show 64 ≤ i by omega)]
    · simp [ge_iff_le, h44, show ¬ (i < 44) → False → True from by omega]
  · intro c hc
    exact tag_lor_hash (land_maskHash_idem _) hc
  · intro hm hmask
    simp [firstIdx, hm, hmask]
  · intro hm
    simp [firstIdx, hm]

/-- Witness for C5 at the concrete payload `(7, 11)` on the example table. -/
theorem C5_default_hash_spec_witness :
    hashStep egTable512 false 7 11 fnvSeed = specMixer 7 11 ∧
    firstIdx egTable512 (hashStep egTable512 false 7 11 fnvSeed)
      = hashStep egTable512 false 7 11 fnvSeed % egTable512.table_size :=
  ⟨(C5_default_hash_spec egTable512 7 11 (by norm_num) (by norm_num)).1,
   (C5_default_hash_spec egTable512 7 11 (by norm_num) (by norm_num)).2.2.2.2 rfl⟩

/-- C6: the first `llmsset_mark i` while the bit of `i` is clear returns
`true` and sets the bit; any further call in the same epoch returns `false`
and leaves the state unchanged; `llmsset_is_marked i` reads exactly the mark
bit of `i`. -/
theorem C6_mark_once (s : LLMSSet) (i : Nat) :
    (llmsset_is_marked s i = s.bitmap2 i) ∧
    (s.bitmap2 i = false →
      llmsset_mark s i = (true, setBit2 s i) ∧
      (llmsset_mark s i).2.bitmap2 i = true ∧
      llmsset_mark (llmsset_mark s i).2 i = (false, (llmsset_mark s i).2)) ∧
    (s.bitmap2 i = true → llmsset_mark s i = (false, s)) := by
  refine ⟨rfl, ?_, ?_⟩
  · intro h
    have h1 : llmsset_mark s i = (true, setBit2 s i) := by
      simp [llmsset_mark, h]
    refine ⟨h1, ?_, ?_⟩
    · rw [h1]
      simp [setBit2]
    · rw [h1]
      simp [llmsset_mark, setBit2]
  · intro h
    simp [llmsset_mark, h]

/-- Witness for C6 on the example table at slot 5 (clear) and slot 0 (set). -/
theorem C6_mark_once_witness :
    llmsset_is_marked egTable512 5 = egTable512.bitmap2 5 ∧
    (llmsset_mark egTable512 5).2.bitmap2 5 = true ∧
    llmsset_mark (llmsset_mark egTable512 5).2 5
      = (false, (llmsset_mark egTable512 5).2) ∧
    llmsset_mark egTable512 0 = (false, egTable512) :=
  ⟨(C6_mark_once egTable512 5).1,
   ((C6_mark_once egTable512 5).2.1 (by decide)).2.1,
   ((C6_mark_once egTable512 5).2.1 (by decide)).2.2,
   (C6_mark_once egTable512 0).2.2 (by decide)⟩

/-! ### The parallel count sweep equals the serial count (C8) -/

theorem countSerialLoop_succ (s : LLMSSet) (first n : Nat) :
    countSerialLoop s first (n + 1)
      = if s.bitmap2 (first + n) then countSerialLoop s first n + 1
        else countSerialLoop s first n := by
  unfold countSerialLoop
  rw [List.range_succ, List.foldl_append]
  simp

theorem countSerialLoop_add (s : LLMSSet) (first m n : Nat) :
    countSerialLoop s first (m + n)
      = countSerialLoop s first m + countSerialLoop s (first + m) n := by
  induction n with
  | zero => simp [countSerialLoop]
  | succ n ih =>
    have hsum : m + (n + 1) = (m + n) + 1 := by ring
    rw [hsum, countSerialLoop_succ, countSerialLoop_succ, ih]
    have : first + (m + n) = first + m + n := by ring
    rw [this]
    by_cases h : s.bitmap2 (first + m + n) <;> simp [h] <;> omega

theorem countMarkedParGo_eq (s : LLMSSet) :
    ∀ fuel first count,
      countMarkedParGo s fuel first count = countSerialLoop s first count := by
  intro fuel
  induction fuel with
  | zero => intro first count; rfl
  | succ fuel ih =>
    intro first count
    by_cases h : 1024 < count
    · have hsplit : count / 2 + (count - count / 2) = count := by omega
      simp only [countMarkedParGo, h, if_true, ih]
      rw [← countSerialLoop_add, hsplit]
    · simp [countMarkedParGo, h]

theorem countSerialLoop_filter (s : LLMSSet) (n : Nat) :
    countSerialLoop s 0 n = ((List.range n).filter (fun i => s.bitmap2 i)).length := by
  induction n with
  | zero => rfl
  | succ n ih =>
    rw [countSerialLoop_succ, List.range_succ, List.filter_append, ih]
    by_cases h : s.bitmap2 n <;> simp [h]

/-- C8: for every bitmap state, the divide-and-conquer
`llmsset_count_marked` (split above 1024, halves joined by addition) returns
exactly the serial count of set mark bits over `[0, table_size)`. -/
theorem C8_count_marked_eq_serial (s : LLMSSet) :
    llmsset_count_marked s = countMarkedSerialSpec s := by
  rw [llmsset_count_marked, llmsset_count_marked_par, countMarkedParGo_eq,
      countSerialLoop_filter, countMarkedSerialSpec]

/-! ### The allocator's first-use region bias (C9) -/

/-- C9 (amended): a worker entering the allocator with the sentinel region
starts its region search at `(worker_id * (table_size / 512)) / worker_count`
— the source divides the table into `table_size / (64*8) = table_size / 512`
regions, not `table_size / 4096` of them. -/
theorem C9_fresh_region_start (s : LLMSSet) (wid wk : Nat) (hw : wid < wk)
    (hts : s.table_size ≤ 2 ^ 44) :
    nextRegion s (freshRegionStart wid wk s.table_size)
      = wid * (s.table_size / 512) / wk := by
  have hwk : 0 < wk := by omega
  have h512 : (64 * 8 : Nat) = 512 := by norm_num
  have hR : numRegions s = s.table_size / 512 := by rw [numRegions, h512]
  set R := s.table_size / 512 with hRdef
  set B := wid * R / wk with hBdef
  have hfresh : freshRegionStart wid wk s.table_size = ((U64 - 1) + B) % U64 := by
    rw [freshRegionStart, h512, ← hRdef, ← hBdef]
  have hBR : R = 0 → B = 0 := by
    intro h0
    rw [hBdef, h0]
    simp
  have hBltR : 1 ≤ R → B < R := by
    intro h1
    rw [hBdef, Nat.div_lt_iff_lt_mul hwk]
    have h2 : (wid + 1) * R ≤ wk * R := Nat.mul_le_mul_right R (by omega)
    have h3 : (wid + 1) * R = wid * R + R := by ring
    have h4 : R * wk = wk * R := Nat.mul_comm _ _
    omega
  have hRle : R ≤ 2 ^ 44 := le_trans (Nat.div_le_self _ _) hts
  have hBU : B < 2 ^ 64 := by
    have : B ≤ wid * R := Nat.div_le_self _ _
    rcases Nat.eq_zero_or_pos R with h0 | h1
    · have := hBR h0
      omega
    · have := hBltR h1
      have : (2 : Nat) ^ 44 < 2 ^ 64 := by norm_num
      omega
  have hU : U64 = 2 ^ 64 := rfl
  have key : ∀ R0 B0 : Nat, (R0 = 0 → B0 = 0) → (1 ≤ R0 → B0 < R0) →
      B0 < 2 ^ 64 →
      (if R0 ≤ ((2 ^ 64 - 1 + B0) % 2 ^ 64 + 1) % 2 ^ 64 then 0
       else ((2 ^ 64 - 1 + B0) % 2 ^ 64 + 1) % 2 ^ 64) = B0 := by
    intro R0 B0 hz hlt hB0U
    rcases Nat.eq_zero_or_pos R0 with h0 | h1
    · have := hz h0
      split_ifs <;> omega
    · have := hlt h1
      split_ifs <;> omega
  simp only [nextRegion, hfresh, hR, hU]
  exact key R B hBR hBltR hBU

/-- Witness for the amended C9: on a size-4096 table, worker 1 of 2 starts
its region search at region `1 * (4096/512) / 2 = 4`. -/
theorem C9_fresh_region_start_witness :
    1 < 2 ∧ egTable4096.table_size ≤ 2 ^ 44 ∧
    nextRegion egTable4096 (freshRegionStart 1 2 egTable4096.table_size)
      = 1 * (egTable4096.table_size / 512) / 2 :=
  ⟨by norm_num, by decide,
   C9_fresh_region_start egTable4096 1 2 (by norm_num) (by decide)⟩

/-- Counterexample to C9 as stated: on a size-4096 table with 2 workers, the
search of worker 1 starts at region 4, not at
`(worker_id * (table_size / 4096)) / worker_count = 0`; accordingly the first
bucket the fresh worker claims is `2048 = 4 * 512`, the first slot of region
4. -/
theorem C9_counterexample :
    nextRegion egTable4096 (freshRegionStart 1 2 4096)
        ≠ 1 * (4096 / 4096) / 2 ∧
    (claim_data_bucket egTable4096 (freshCtx 1 2)).1 = some 2048 := by
  constructor
  · decide
  · decide

/-! ### The notify-dead sweep (C7) -/

theorem notifyStep_fields (cb : Nat → Bool) (s : LLMSSet) (k : Nat) :
    (notifyStep cb s k).table = s.table ∧ (notifyStep cb s k).data = s.data ∧
    (notifyStep cb s k).bitmap1 = s.bitmap1 ∧
    (notifyStep cb s k).table_size = s.table_size ∧
    (notifyStep cb s k).threshold = s.threshold ∧
    (notifyStep cb s k).maskMode = s.maskMode ∧
    (notifyStep cb s k).mask = s.mask ∧
    (notifyStep cb s k).hash_cb = s.hash_cb ∧
    (notifyStep cb s k).equals_cb = s.equals_cb ∧
    (notifyStep cb s k).dead_cb = s.dead_cb := by
  unfold notifyStep setBit2 clearBit3
  split_ifs <;> simp

theorem notifyStep_bit2 (cb : Nat → Bool) (s : LLMSSet) (k j : Nat) :
    (notifyStep cb s k).bitmap2 j
      = if j = k then (if !s.bitmap2 k && s.bitmap3 k && cb k then true else s.bitmap2 k)
        else s.bitmap2 j := by
  unfold notifyStep setBit2 clearBit3
  by_cases hb2 : s.bitmap2 k <;> by_cases hb3 : s.bitmap3 k <;>
    by_cases hcb : cb k <;> by_cases hj : j = k <;>
      simp [hb2, hb3, hcb, hj]

theorem notifyStep_bit3 (cb : Nat → Bool) (s : LLMSSet) (k j : Nat) :
    (notifyStep cb s k).bitmap3 j
      = if j = k then (if !s.bitmap2 k && s.bitmap3 k && !cb k then false else s.bitmap3 k)
        else s.bitmap3 j := by
  unfold notifyStep setBit2 clearBit3
  by_cases hb2 : s.bitmap2 k <;> by_cases hb3 : s.bitmap3 k <;>
    by_cases hcb : cb k <;> by_cases hj : j = k <;>
      simp [hb2, hb3, hcb, hj]

theorem notifySerial_spec (cb : Nat → Bool) (s : LLMSSet) (first : Nat) :
    ∀ count,
      (∀ j, ((List.range count).foldl (fun t k => notifyStep cb t (first + k)) s).bitmap2 j
          = if first ≤ j ∧ j < first + count
            then (if !s.bitmap2 j && s.bitmap3 j && cb j then true else s.bitmap2 j)
            else s.bitmap2 j) ∧
      (∀ j, ((List.range count).foldl (fun t k => notifyStep cb t (first + k)) s).bitmap3 j
          = if first ≤ j ∧ j < first + count
            then (if !s.bitmap2 j && s.bitmap3 j && !cb j then false else s.bitmap3 j)
            else s.bitmap3 j) := by
  intro count
  induction count with
  | zero =>
    constructor <;> intro j <;>
      simp [show ¬ (first ≤ j ∧ j < first) by omega]
  | succ count ih =>
    rw [List.range_succ, List.foldl_append]
    simp only [List.foldl_cons, List.foldl_nil]
    constructor <;> intro j
    · rw [notifyStep_bit2, ih.1 j]
      by_cases hj : j = first + count
      · subst hj
        rw [ih.1 (first + count), ih.2 (first + count)]
        simp [show ¬ (first + count < first + count) by omega,
          show first ≤ first + count by omega, show first + count < first + count + 1 by omega]
      · simp only [hj, if_false]
        by_cases hin : first ≤ j ∧ j < first + count
        · simp [hin, show first ≤ j ∧ j < first + (count + 1) by omega]
        · have : ¬ (first ≤ j ∧ j < first + (count + 1)) := by omega
          simp [hin, this]
    · rw [notifyStep_bit3, ih.2 j]
      by_cases hj : j = first + count
      · subst hj
        rw [ih.1 (first + count), ih.2 (first + count)]
        simp [show ¬ (first + count < first + count) by omega,
          show first ≤ first + count by omega, show first + count < first + count + 1 by omega]
      · simp only [hj, if_false]
        by_cases hin : first ≤ j ∧ j < first + count
        · simp [hin, show first ≤ j ∧ j < first + (count + 1) by omega]
        · have : ¬ (first ≤ j ∧ j < first + (count + 1)) := by omega
          simp [hin, this]

theorem notifySerial_fields (cb : Nat → Bool) (first : Nat) :
    ∀ count (s : LLMSSet),
      (((List.range count).foldl (fun t k => notifyStep cb t (first + k)) s).table
          = s.table) ∧
      (((List.range count).foldl (fun t k => notifyStep cb t (first + k)) s).data
          = s.data) := by
  intro count
  induction count with
  | zero => intro s; exact ⟨rfl, rfl⟩
  | succ count ih =>
    intro s
    rw [List.range_succ, List.foldl_append]
    simp only [List.foldl_cons, List.foldl_nil]
    refine ⟨?_, ?_⟩
    · rw [(notifyStep_fields cb _ _).1, (ih s).1]
    · rw [(notifyStep_fields cb _ _).2.1, (ih s).2]

theorem notifyParGo_spec (cb : Nat → Bool) :
    ∀ fuel (s : LLMSSet) first count,
      (∀ j, (notifyParGo cb fuel s first count).bitmap2 j
          = if first ≤ j ∧ j < first + count
            then (if !s.bitmap2 j && s.bitmap3 j && cb j then true else s.bitmap2 j)
            else s.bitmap2 j) ∧
      (∀ j, (notifyParGo cb fuel s first count).bitmap3 j
          = if first ≤ j ∧ j < first + count
            then (if !s.bitmap2 j && s.bitmap3 j && !cb j then false else s.bitmap3 j)
            else s.bitmap3 j) ∧
      (notifyParGo cb fuel s first count).table = s.table ∧
      (notifyParGo cb fuel s first count).data = s.data := by
  intro fuel
  induction fuel with
  | zero =>
    intro s first count
    exact ⟨(notifySerial_spec cb s first count).1, (notifySerial_spec cb s first count).2,
      (notifySerial_fields cb first count s).1, (notifySerial_fields cb first count s).2⟩
  | succ fuel ih =>
    intro s first count
    by_cases h : 1024 < count
    · simp only [notifyParGo, h, if_true]
      set s1 := notifyParGo cb fuel s first (count / 2) with hs1
      have ih1 := ih s first (count / 2)
      have ih2 := ih s1 (first + count / 2) (count - count / 2)
      have hb2 : ∀ j, s1.bitmap2 j
          = if first ≤ j ∧ j < first + count / 2
            then (if !s.bitmap2 j && s.bitmap3 j && cb j then true else s.bitmap2 j)
            else s.bitmap2 j := ih1.1
      have hb3 : ∀ j, s1.bitmap3 j
          = if first ≤ j ∧ j < first + count / 2
            then (if !s.bitmap2 j && s.bitmap3 j && !cb j then false else s.bitmap3 j)
            else s.bitmap3 j := ih1.2.1
      refine ⟨?_, ?_, ?_, ?_⟩
      · intro j
        rw [ih2.1 j]
        simp only [hb2 j, hb3 j]
        by_cases h1 : first ≤ j ∧ j < first + count / 2
        · have h2 : ¬ (first + count / 2 ≤ j ∧ j < first + count / 2 + (count - count / 2)) := by
            omega
          have h3 : first ≤ j ∧ j < first + count := by omega
          simp [h1, h2, h3]
        · by_cases h2 : first + count / 2 ≤ j ∧ j < first + count / 2 + (count - count / 2)
          · have h3 : first ≤ j ∧ j < first + count := by omega
            have h1b : ¬ j < first + count / 2 := by omega
            simp [h1, h1b, h2, h3]
          · have h3 : ¬ (first ≤ j ∧ j < first + count) := by
              rcases not_and_or.mp h1 with hx | hx <;> rcases not_and_or.mp h2 with hy | hy <;>
                omega
            simp [h1, h2, h3]
      · intro j
        rw [ih2.2.1 j]
        simp only [hb2 j, hb3 j]
        by_cases h1 : first ≤ j ∧ j < first + count / 2
        · have h2 : ¬ (first + count / 2 ≤ j ∧ j < first + count / 2 + (count - count / 2)) := by
            omega
          have h3 : first ≤ j ∧ j < first + count := by omega
          simp [h1, h2, h3]
        · by_cases h2 : first + count / 2 ≤ j ∧ j < first + count / 2 + (count - count / 2)
          · have h3 : first ≤ j ∧ j < first + count := by omega
            have h1b : ¬ j < first + count / 2 := by omega
            simp [h1, h1b, h2, h3]
          · have h3 : ¬ (first ≤ j ∧ j < first + count) := by
              rcases not_and_or.mp h1 with hx | hx <;> rcases not_and_or.mp h2 with hy | hy <;>
                omega
            simp [h1, h2, h3]
      · rw [ih2.2.2.1, ih1.2.2.1]
      · rw [ih2.2.2.2, ih1.2.2.2]
    · simp only [notifyParGo, h, if_false]
      exact ⟨(notifySerial_spec cb s first count).1, (notifySerial_spec cb s first count).2,
        (notifySerial_fields cb first count s).1, (notifySerial_fields cb first count s).2⟩

/-- C7: `llmsset_notify_all` visits every index of `[0, table_size)`; where
the occupancy bit is clear and the notify bit set it consults the registered
dead callback — `true` resurrects the slot (its `bitmap2` bit is set), else
its `bitmap3` bit is cleared; the bits of every other index, and the
directory and payload arrays, are unchanged. -/
theorem C7_notify_all_spec (s : LLMSSet) (cb : Nat → Bool)
    (h : s.dead_cb = some cb) :
    (∀ i, i < s.table_size →
      (llmsset_notify_all s).bitmap2 i
          = (if !s.bitmap2 i && s.bitmap3 i && cb i then true else s.bitmap2 i) ∧
      (llmsset_notify_all s).bitmap3 i
          = (if !s.bitmap2 i && s.bitmap3 i && !cb i then false else s.bitmap3 i)) ∧
    (∀ i, s.table_size ≤ i →
      (llmsset_notify_all s).bitmap2 i = s.bitmap2 i ∧
      (llmsset_notify_all s).bitmap3 i = s.bitmap3 i) ∧
    (llmsset_notify_all s).table = s.table ∧
    (llmsset_notify_all s).data = s.data := by
  have hN : llmsset_notify_all s = notifyParGo cb s.table_size s 0 s.table_size := by
    rw [llmsset_notify_all, h]
    rfl
  have hspec := notifyParGo_spec cb s.table_size s 0 s.table_size
  rw [hN]
  refine ⟨?_, ?_, hspec.2.2.1, hspec.2.2.2⟩
  · intro i hi
    constructor
    · rw [hspec.1 i]
      simp [hi]
    · rw [hspec.2.1 i]
      simp [hi]
  · intro i hi
    constructor
    · rw [hspec.1 i]
      simp [show ¬ i < s.table_size by omega]
    · rw [hspec.2.1 i]
      simp [show ¬ i < s.table_size by omega]

/-- Witness for C7 on the 16-slot example: slot 5 (dead, notify set, callback
keeps it) is resurrected, slot 7 (dead, notify set, callback declines) has its
notify bit cleared, slot 6 (still occupied) keeps both bits. -/
theorem C7_notify_all_spec_witness :
    (llmsset_notify_all egTableNotify).bitmap2 5 = true ∧
    (llmsset_notify_all egTableNotify).bitmap3 7 = false ∧
    (llmsset_notify_all egTableNotify).bitmap2 7 = false ∧
    (llmsset_notify_all egTableNotify).bitmap2 6 = true ∧
    (llmsset_notify_all egTableNotify).bitmap3 6 = true := by
  have h5 := (C7_notify_all_spec egTableNotify egNotifyCb rfl).1 5 (by decide)
  have h7 := (C7_notify_all_spec egTableNotify egNotifyCb rfl).1 7 (by decide)
  have h6 := (C7_notify_all_spec egTableNotify egNotifyCb rfl).1 6 (by decide)
  refine ⟨h5.1.trans (by decide), h7.2.trans (by decide), h7.1.trans (by decide),
    h6.1.trans (by decide), h6.2.trans (by decide)⟩

/-! ### The payload-slot allocator (claim_data_bucket) -/

theorem SameCfg_refl (s : LLMSSet) : SameCfg s s :=
  ⟨rfl, rfl, rfl, rfl, rfl, rfl, rfl⟩

theorem SameCfg_trans {s t u : LLMSSet} (h1 : SameCfg s t) (h2 : SameCfg t u) :
    SameCfg s u := by
  obtain ⟨a1, a2, a3, a4, a5, a6, a7⟩ := h1
  obtain ⟨b1, b2, b3, b4, b5, b6, b7⟩ := h2
  exact ⟨b1.trans a1, b2.trans a2, b3.trans a3, b4.trans a4, b5.trans a5,
    b6.trans a6, b7.trans a7⟩

theorem findClearInRegion_some {s : LLMSSet} {r j : Nat}
    (h : findClearInRegion s r = some j) :
    s.bitmap2 j = false ∧ r * 512 ≤ j ∧ j < r * 512 + 512 := by
  unfold findClearInRegion at h
  rcases hf : (List.range 512).find? (fun jj => !(s.bitmap2 (r * 512 + jj))) with _ | jj
  · rw [hf] at h
    simp at h
  · rw [hf] at h
    simp only [Option.map_some'] at h
    have hj : r * 512 + jj = j := by
      injection h
    have h1 := List.find?_some hf
    have h2 := List.mem_of_find?_eq_some hf
    simp only [Bool.not_eq_true'] at h1
    have h3 : jj < 512 := List.mem_range.mp h2
    subst hj
    exact ⟨h1, by omega, by omega⟩

theorem nextRegion_lt {s : LLMSSet} (h : 1 ≤ numRegions s) (m : Nat) :
    nextRegion s m < numRegions s := by
  unfold nextRegion
  simp only []
  split_ifs with hc
  · omega
  · omega

theorem regionSearch_some {s : LLMSSet} :
    ∀ {count m s1 m1}, regionSearch s m count = some (s1, m1) →
      s1 = setBit1 s m1 ∧ (1 ≤ numRegions s → m1 < numRegions s) := by
  intro count
  induction count with
  | zero =>
    intro m s1 m1 h
    simp [regionSearch] at h
  | succ count ih =>
    intro m s1 m1 h
    rw [regionSearch] at h
    by_cases hb : s.bitmap1 (nextRegion s m)
    · rw [if_pos hb] at h
      exact ih h
    · rw [if_neg hb] at h
      injection h with h2
      rw [Prod.mk.injEq] at h2
      obtain ⟨hA, hB⟩ := h2
      subst hB
      subst hA
      exact ⟨rfl, fun hr => nextRegion_lt hr m⟩

theorem setBit1_other (s : LLMSSet) (r : Nat) :
    (setBit1 s r).table = s.table ∧ (setBit1 s r).data = s.data ∧
    (setBit1 s r).bitmap2 = s.bitmap2 ∧ (setBit1 s r).bitmap3 = s.bitmap3 ∧
    SameCfg s (setBit1 s r) ∧ numRegions (setBit1 s r) = numRegions s := by
  refine ⟨rfl, rfl, rfl, rfl, SameCfg_refl s, rfl⟩

theorem claimGo_some {wid wk : Nat} :
    ∀ {fuel : Nat} {s : LLMSSet} {m st j : Nat} {s1 : LLMSSet} {st1 : Nat},
      claimGo wid wk fuel s m st = (some j, s1, st1) →
      (m = U64 - 1 ∨ m < numRegions s) → 1 ≤ numRegions s →
      s.bitmap2 j = false ∧ j < 512 * numRegions s ∧
      s1.table = s.table ∧ s1.data = s.data ∧ s1.bitmap3 = s.bitmap3 ∧
      SameCfg s s1 ∧
      s1.bitmap2 = fun q => if q = j then true else s.bitmap2 q := by
  intro fuel
  induction fuel with
  | zero =>
    intro s m st j s1 st1 h hm hr
    simp [claimGo] at h
  | succ fuel ih =>
    intro s m st j s1 st1 h hm hr
    rw [claimGo] at h
    by_cases hsent : m ≠ U64 - 1
    · rw [if_pos hsent] at h
      have hmlt : m < numRegions s := by
        rcases hm with hm | hm
        · exact absurd hm hsent
        · exact hm
      rcases hf : findClearInRegion s m with _ | jf
      · rw [hf] at h
        rcases hs : regionSearch s m (numRegions s) with _ | p
        · rw [hs] at h
          simp at h
        · rw [hs] at h
          obtain ⟨hset, hlt⟩ := regionSearch_some hs
          have hm1 : p.2 < numRegions s := hlt hr
          have hrec : claimGo wid wk fuel p.1 p.2 p.2 = (some j, s1, st1) := h
          have hctx1 : p.2 = U64 - 1 ∨ p.2 < numRegions p.1 := by
            right
            rw [hset]
            exact hm1
          have hreg1 : 1 ≤ numRegions p.1 := by
            rw [hset]
            exact hr
          obtain ⟨c1, c2, c3, c4, c5, c6, c7⟩ := ih hrec hctx1 hreg1
          rw [hset] at c1 c2 c3 c4 c5 c6 c7
          exact ⟨c1, c2, c3, c4, c5, c6, c7⟩
      · rw [hf] at h
        simp only [Prod.mk.injEq] at h
        obtain ⟨hj, hs1, hst⟩ := h
        injection hj with hj
        subst hj
        obtain ⟨hb2, hlo, hhi⟩ := findClearInRegion_some hf
        refine ⟨hb2, by omega, ?_, ?_, ?_, ?_, ?_⟩
        · rw [← hs1]; rfl
        · rw [← hs1]; rfl
        · rw [← hs1]; rfl
        · rw [← hs1]; exact SameCfg_refl s
        · rw [← hs1]; rfl
    · rw [if_neg hsent] at h
      simp only [] at h
      rcases hs : regionSearch s (freshRegionStart wid wk s.table_size) (numRegions s)
        with _ | p
      · rw [hs] at h
        simp at h
      · rw [hs] at h
        obtain ⟨hset, hlt⟩ := regionSearch_some hs
        have hm1 : p.2 < numRegions s := hlt hr
        have hrec : claimGo wid wk fuel p.1 p.2 p.2 = (some j, s1, st1) := h
        have hctx1 : p.2 = U64 - 1 ∨ p.2 < numRegions p.1 := by
          right
          rw [hset]
          exact hm1
        have hreg1 : 1 ≤ numRegions p.1 := by
          rw [hset]
          exact hr
        obtain ⟨c1, c2, c3, c4, c5, c6, c7⟩ := ih hrec hctx1 hreg1
        rw [hset] at c1 c2 c3 c4 c5 c6 c7
        exact ⟨c1, c2, c3, c4, c5, c6, c7⟩

theorem claimGo_none {wid wk : Nat} :
    ∀ {fuel : Nat} {s : LLMSSet} {m st : Nat} {s1 : LLMSSet} {st1 : Nat},
      claimGo wid wk fuel s m st = (none, s1, st1) →
      s1.table = s.table ∧ s1.data = s.data ∧ s1.bitmap2 = s.bitmap2 ∧
      s1.bitmap3 = s.bitmap3 ∧ SameCfg s s1 := by
  intro fuel
  induction fuel with
  | zero =>
    intro s m st s1 st1 h
    rw [claimGo] at h
    simp only [Prod.mk.injEq] at h
    obtain ⟨-, hs1, -⟩ := h
    rw [← hs1]
    exact ⟨rfl, rfl, rfl, rfl, SameCfg_refl s⟩
  | succ fuel ih =>
    intro s m st s1 st1 h
    rw [claimGo] at h
    by_cases hsent : m ≠ U64 - 1
    · rw [if_pos hsent] at h
      rcases hf : findClearInRegion s m with _ | jf
      · rw [hf] at h
        rcases hs : regionSearch s m (numRegions s) with _ | p
        · rw [hs] at h
          simp only [Prod.mk.injEq] at h
          obtain ⟨-, hs1, -⟩ := h
          rw [← hs1]
          exact ⟨rfl, rfl, rfl, rfl, SameCfg_refl s⟩
        · rw [hs] at h
          obtain ⟨hset, -⟩ := regionSearch_some hs
          obtain ⟨c1, c2, c3, c4, c5⟩ := ih h
          rw [hset] at c1 c2 c3 c4 c5
          exact ⟨c1, c2, c3, c4, c5⟩
      · rw [hf] at h
        simp at h
    · rw [if_neg hsent] at h
      simp only [] at h
      rcases hs : regionSearch s (freshRegionStart wid wk s.table_size) (numRegions s)
        with _ | p
      · rw [hs] at h
        simp only [Prod.mk.injEq] at h
        obtain ⟨-, hs1, -⟩ := h
        rw [← hs1]
        exact ⟨rfl, rfl, rfl, rfl, SameCfg_refl s⟩
      · rw [hs] at h
        obtain ⟨hset, -⟩ := regionSearch_some hs
        obtain ⟨c1, c2, c3, c4, c5⟩ := ih h
        rw [hset] at c1 c2 c3 c4 c5
        exact ⟨c1, c2, c3, c4, c5⟩

theorem claim_data_bucket_some {s : LLMSSet} {ctx : WorkerCtx} {j : Nat}
    {s1 : LLMSSet} {ctx1 : WorkerCtx}
    (h : claim_data_bucket s ctx = (some j, s1, ctx1))
    (hctx : CtxOk s ctx) (hreg : 1 ≤ numRegions s) :
    s.bitmap2 j = false ∧ j < 512 * numRegions s ∧
    s1.table = s.table ∧ s1.data = s.data ∧ s1.bitmap3 = s.bitmap3 ∧
    SameCfg s s1 ∧
    s1.bitmap2 = fun q => if q = j then true else s.bitmap2 q := by
  rw [claim_data_bucket] at h
  simp only [Prod.mk.injEq] at h
  obtain ⟨h1, h2, h3⟩ := h
  have hgo : claimGo ctx.worker_id ctx.workers (numRegions s + 2) s ctx.my_region
      ctx.my_region
      = (some j, s1,
         (claimGo ctx.worker_id ctx.workers (numRegions s + 2) s ctx.my_region
            ctx.my_region).2.2) := by
    rw [← h1, ← h2]
  exact claimGo_some hgo hctx hreg

theorem claim_data_bucket_none {s : LLMSSet} {ctx : WorkerCtx}
    {s1 : LLMSSet} {ctx1 : WorkerCtx}
    (h : claim_data_bucket s ctx = (none, s1, ctx1)) :
    s1.table = s.table ∧ s1.data = s.data ∧ s1.bitmap2 = s.bitmap2 ∧
    s1.bitmap3 = s.bitmap3 ∧ SameCfg s s1 := by
  rw [claim_data_bucket] at h
  simp only [Prod.mk.injEq] at h
  obtain ⟨h1, h2, h3⟩ := h
  have hgo : claimGo ctx.worker_id ctx.workers (numRegions s + 2) s ctx.my_region
      ctx.my_region
      = (none, s1,
         (claimGo ctx.worker_id ctx.workers (numRegions s + 2) s ctx.my_region
            ctx.my_region).2.2) := by
    rw [← h1, ← h2]
  exact claimGo_none hgo

theorem scanLine_next {a b : Nat} {custom : Bool} {hash last : Nat} :
    ∀ {k idx : Nat} {s : LLMSSet} {ctx : WorkerCtx} {s1 : LLMSSet}
      {ctx1 : WorkerCtx} {c1 : Nat},
      scanLine a b custom hash last k idx 0 s ctx = .next s1 ctx1 c1 →
      s1 = s ∧ ctx1 = ctx ∧ c1 = 0 ∧
      ∃ m, m < k ∧
        (∀ n, n ≤ m →
          s.table (clStep^[n] idx) ≠ 0 ∧
          ¬(hash = s.table (clStep^[n] idx) &&& MASK_HASH ∧
            payloadMatches s custom a b (s.table (clStep^[n] idx) &&& MASK_INDEX) = true)) ∧
        (∀ n, n < m → clStep^[n + 1] idx ≠ last) ∧
        clStep^[m + 1] idx = last := by
  intro k
  induction k with
  | zero =>
    intro idx s ctx s1 ctx1 c1 h
    rw [scanLine] at h
    exact absurd h (by simp)
  | succ k ih =>
    intro idx s ctx s1 ctx1 c1 h
    rw [scanLine] at h
    simp only [] at h
    by_cases hv : s.table idx = 0
    · rw [if_pos hv] at h
      split at h
      · exact absurd h (by simp)
      · exact absurd h (by simp)
    · rw [if_neg hv] at h
      by_cases hmatch : hash = s.table idx &&& MASK_HASH ∧
          payloadMatches s custom a b (s.table idx &&& MASK_INDEX) = true
      · rw [if_pos hmatch] at h
        exact absurd h (by simp)
      · rw [if_neg hmatch] at h
        by_cases hw : clStep idx = last
        · rw [if_pos hw] at h
          have h1 : s = s1 ∧ ctx = ctx1 ∧ 0 = c1 := by
            injection h with e1 e2 e3
            exact ⟨e1, e2, e3⟩
          obtain ⟨e1, e2, e3⟩ := h1
          refine ⟨e1.symm, e2.symm, e3.symm, 0, by omega, ?_, by omega, by simpa using hw⟩
          intro n hn
          have : n = 0 := by omega
          subst this
          simp only [Function.iterate_zero, id_eq]
          exact ⟨hv, hmatch⟩
        · rw [if_neg hw] at h
          obtain ⟨e1, e2, e3, m, hmk, hmiss, hwrap, hlast⟩ := ih h
          refine ⟨e1, e2, e3, m + 1, by omega, ?_, ?_, ?_⟩
          · intro n hn
            match n with
            | 0 =>
              simp only [Function.iterate_zero, id_eq]
              exact ⟨hv, hmatch⟩
            | n + 1 =>
              rw [Function.iterate_succ_apply]
              exact hmiss n (by omega)
          · intro n hn
            match n with
            | 0 =>
              simpa using hw
            | n + 1 =>
              rw [show n + 1 + 1 = (n + 1) + 1 from rfl, Function.iterate_succ_apply]
              exact hwrap n (by omega)
          · rw [Function.iterate_succ_apply]
            exact hlast

theorem scanLine_create {a b : Nat} {custom : Bool} {hash last : Nat} :
    ∀ {k idx : Nat} {s : LLMSSet} {ctx : WorkerCtx} {i : Nat} {s1 : LLMSSet}
      {ctx1 : WorkerCtx},
      scanLine a b custom hash last k idx 0 s ctx = .done (.ok i true) s1 ctx1 →
      ∃ m, m < k ∧
        (∀ n, n < m →
          s.table (clStep^[n] idx) ≠ 0 ∧
          ¬(hash = s.table (clStep^[n] idx) &&& MASK_HASH ∧
            payloadMatches s custom a b (s.table (clStep^[n] idx) &&& MASK_INDEX) = true)) ∧
        (∀ n, n < m → clStep^[n + 1] idx ≠ last) ∧
        s.table (clStep^[m] idx) = 0 ∧
        ∃ s2 : LLMSSet,
          claim_data_bucket s ctx = (some i, s2, ctx1) ∧
          s1 = (if custom || (setSlot (writeData s2 i a b) (clStep^[m] idx)
                    (hash ||| i)).hash_cb.isSome
                then set_custom_bucket (setSlot (writeData s2 i a b) (clStep^[m] idx)
                    (hash ||| i)) i custom
                else setSlot (writeData s2 i a b) (clStep^[m] idx) (hash ||| i)) := by
  intro k
  induction k with
  | zero =>
    intro idx s ctx i s1 ctx1 h
    rw [scanLine] at h
    exact absurd h (by simp)
  | succ k ih =>
    intro idx s ctx i s1 ctx1 h
    rw [scanLine] at h
    simp only [] at h
    by_cases hv : s.table idx = 0
    · rw [if_pos hv] at h
      split at h
      · exact absurd h (by simp)
      · next c heq =>
        simp at heq
        injection h with hout hs1 hctx1
        simp only [if_true] at hs1 hctx1
        injection hout with hc hcreated
        subst hc
        refine ⟨0, by omega, by omega, by omega, by simpa using hv,
          (claim_data_bucket s ctx).2.1, ?_, ?_⟩
        · rw [← hctx1, ← heq]
        · simp only [Function.iterate_zero, id_eq]
          exact hs1.symm
    · rw [if_neg hv] at h
      by_cases hmatch : hash = s.table idx &&& MASK_HASH ∧
          payloadMatches s custom a b (s.table idx &&& MASK_INDEX) = true
      · rw [if_pos hmatch] at h
        exact absurd h (by simp)
      · rw [if_neg hmatch] at h
        by_cases hw : clStep idx = last
        · rw [if_pos hw] at h
          exact absurd h (by simp)
        · rw [if_neg hw] at h
          obtain ⟨m, hmk, hmiss, hwrap, hempty, s2, hclaim, hpub⟩ := ih h
          refine ⟨m + 1, by omega, ?_, ?_, ?_, s2, hclaim, ?_⟩
          · intro n hn
            match n with
            | 0 =>
              simp only [Function.iterate_zero, id_eq]
              exact ⟨hv, hmatch⟩
            | n + 1 =>
              rw [Function.iterate_succ_apply]
              exact hmiss n (by omega)
          · intro n hn
            match n with
            | 0 =>
              simpa using hw
            | n + 1 =>
              rw [show n + 1 + 1 = (n + 1) + 1 from rfl, Function.iterate_succ_apply]
              exact hwrap n (by omega)
          · rw [Function.iterate_succ_apply]
            exact hempty
          · rw [Function.iterate_succ_apply]
            exact hpub

theorem scanLine_found_state {a b : Nat} {custom : Bool} {hash last : Nat} :
    ∀ {k idx : Nat} {s : LLMSSet} {ctx : WorkerCtx} {i : Nat} {s1 : LLMSSet}
      {ctx1 : WorkerCtx},
      scanLine a b custom hash last k idx 0 s ctx = .done (.ok i false) s1 ctx1 →
      s1 = s ∧ ctx1 = ctx := by
  intro k
  induction k with
  | zero =>
    intro idx s ctx i s1 ctx1 h
    rw [scanLine] at h
    exact absurd h (by simp)
  | succ k ih =>
    intro idx s ctx i s1 ctx1 h
    rw [scanLine] at h
    simp only [] at h
    by_cases hv : s.table idx = 0
    · rw [if_pos hv] at h
      split at h
      · exact absurd h (by simp)
      · exact absurd h (by simp)
    · rw [if_neg hv] at h
      by_cases hmatch : hash = s.table idx &&& MASK_HASH ∧
          payloadMatches s custom a b (s.table idx &&& MASK_INDEX) = true
      · rw [if_pos hmatch] at h
        injection h with hout hs1 hctx1
        simp only [if_neg (by omega : ¬ ((0 : Nat) ≠ 0))] at hs1
        exact ⟨hs1.symm, hctx1.symm⟩
      · rw [if_neg hmatch] at h
        by_cases hw : clStep idx = last
        · rw [if_pos hw] at h
          exact absurd h (by simp)
        · rw [if_neg hw] at h
          exact ih h

theorem scanLine_full_state {a b : Nat} {custom : Bool} {hash last : Nat} :
    ∀ {k idx : Nat} {s : LLMSSet} {ctx : WorkerCtx} {s1 : LLMSSet}
      {ctx1 : WorkerCtx},
      scanLine a b custom hash last k idx 0 s ctx = .done .full s1 ctx1 →
      s1 = s ∧ ctx1 = ctx := by
  intro k
  induction k with
  | zero =>
    intro idx s ctx s1 ctx1 h
    rw [scanLine] at h
    injection h with hout hs1 hctx1
    exact ⟨hs1.symm, hctx1.symm⟩
  | succ k ih =>
    intro idx s ctx s1 ctx1 h
    rw [scanLine] at h
    simp only [] at h
    by_cases hv : s.table idx = 0
    · rw [if_pos hv] at h
      split at h
      · exact absurd h (by simp)
      · exact absurd h (by simp)
    · rw [if_neg hv] at h
      by_cases hmatch : hash = s.table idx &&& MASK_HASH ∧
          payloadMatches s custom a b (s.table idx &&& MASK_INDEX) = true
      · rw [if_pos hmatch] at h
        exact absurd h (by simp)
      · rw [if_neg hmatch] at h
        by_cases hw : clStep idx = last
        · rw [if_pos hw] at h
          exact absurd h (by simp)
        · rw [if_neg hw] at h
          exact ih h

theorem scanLine_nospace_state {a b : Nat} {custom : Bool} {hash last : Nat} :
    ∀ {k idx : Nat} {s : LLMSSet} {ctx : WorkerCtx} {s1 : LLMSSet}
      {ctx1 : WorkerCtx},
      scanLine a b custom hash last k idx 0 s ctx = .done .nospace s1 ctx1 →
      claim_data_bucket s ctx = (none, s1, ctx1) := by
  intro k
  induction k with
  | zero =>
    intro idx s ctx s1 ctx1 h
    rw [scanLine] at h
    exact absurd h (by simp)
  | succ k ih =>
    intro idx s ctx s1 ctx1 h
    rw [scanLine] at h
    simp only [] at h
    by_cases hv : s.table idx = 0
    · rw [if_pos hv] at h
      split at h
      · next heq =>
        simp at heq
        injection h with hout hs1 hctx1
        simp only [if_true] at hs1 hctx1
        rw [← hs1, ← hctx1, ← heq]
      · exact absurd h (by simp)
    · rw [if_neg hv] at h
      by_cases hmatch : hash = s.table idx &&& MASK_HASH ∧
          payloadMatches s custom a b (s.table idx &&& MASK_INDEX) = true
      · rw [if_pos hmatch] at h
        exact absurd h (by simp)
      · rw [if_neg hmatch] at h
        by_cases hw : clStep idx = last
        · rw [if_pos hw] at h
          exact absurd h (by simp)
        · rw [if_neg hw] at h
          exact ih h

theorem payloadMatches_matchesPair (t : LLMSSet) (custom : Bool) (aa bb d : Nat) :
    payloadMatches t custom aa bb d
      = matchesPair t custom aa bb (t.data d).1 (t.data d).2 := rfl

theorem matchesPair_congr {s t : LLMSSet} (h : t.equals_cb = s.equals_cb)
    (custom : Bool) (aa bb x y : Nat) :
    matchesPair t custom aa bb x y = matchesPair s custom aa bb x y := by
  simp [matchesPair, h]

theorem hashStep_congr {s t : LLMSSet} (h : t.hash_cb = s.hash_cb)
    (custom : Bool) (aa bb hh : Nat) :
    hashStep t custom aa bb hh = hashStep s custom aa bb hh := by
  simp [hashStep, h]

theorem firstIdx_congr {s t : LLMSSet} (hc : SameCfg s t) (h : Nat) :
    firstIdx t h = firstIdx s h := by
  obtain ⟨h1, h2, h3, h4, h5, h6, h7⟩ := hc
  simp [firstIdx, h1, h3, h4]

theorem scanLine_retrace {a2 b2 : Nat} {custom : Bool} {hash last i : Nat}
    {t : LLMSSet} {ctx : WorkerCtx} :
    ∀ {k idx : Nat},
      (∃ w, w < k ∧ (∀ j, j < w → clStep^[j + 1] idx ≠ last) ∧
        clStep^[w + 1] idx = last) →
      (∀ n, n < k → (∀ j, j < n → clStep^[j + 1] idx ≠ last) →
        slotTargeted t custom a2 b2 hash i (clStep^[n] idx)) →
      scanLine a2 b2 custom hash last k idx 0 t ctx = .next t ctx 0 ∨
      scanLine a2 b2 custom hash last k idx 0 t ctx = .done (.ok i false) t ctx := by
  intro k
  induction k with
  | zero =>
    intro idx hw H
    obtain ⟨w, hw0, -, -⟩ := hw
    omega
  | succ k ih =>
    intro idx hw H
    obtain ⟨w, hwk, hwne, hwlast⟩ := hw
    have h0 := H 0 (by omega) (by omega)
    rw [slotTargeted] at h0
    simp only [Function.iterate_zero, id_eq] at h0
    obtain ⟨hnz, htarget⟩ := h0
    rw [scanLine]
    simp only []
    rw [if_neg hnz]
    by_cases hmatch : hash = t.table idx &&& MASK_HASH ∧
        payloadMatches t custom a2 b2 (t.table idx &&& MASK_INDEX) = true
    · rw [if_pos hmatch]
      right
      have hi : t.table idx &&& MASK_INDEX = i := htarget hmatch.1 hmatch.2
      rw [hi]
      simp only [if_neg (by omega : ¬ ((0 : Nat) ≠ 0))]
    · rw [if_neg hmatch]
      by_cases hws : clStep idx = last
      · rw [if_pos hws]
        left
        rfl
      · rw [if_neg hws]
        have hwpos : w ≠ 0 := by
          intro h0
          subst h0
          exact hws (by simpa using hwlast)
        refine ih ⟨w - 1, by omega, ?_, ?_⟩ ?_
        · intro j hj
          have := hwne (j + 1) (by omega)
          rw [show j + 1 + 1 = (j + 1) + 1 from rfl, Function.iterate_succ_apply] at this
          exact this
        · have : clStep^[(w - 1) + 1] (clStep idx) = clStep^[w + 1] idx := by
            rw [← Function.iterate_succ_apply]
            congr 1
            omega
          rw [this]
          exact hwlast
        · intro n hn hvis
          have hvis' : ∀ j, j < n + 1 → clStep^[j + 1] idx ≠ last := by
            intro j hj
            match j with
            | 0 => simpa using hws
            | j + 1 =>
              have := hvis j (by omega)
              rw [show j + 1 + 1 = (j + 1) + 1 from rfl, Function.iterate_succ_apply]
              exact this
          have := H (n + 1) (by omega) hvis'
          rw [Function.iterate_succ_apply] at this
          exact this

theorem scanLine_retrace_hit {a2 b2 : Nat} {custom : Bool} {hash last i : Nat}
    {t : LLMSSet} {ctx : WorkerCtx} :
    ∀ {m k idx : Nat}, m < k →
      (∀ n, n < m → slotTargeted t custom a2 b2 hash i (clStep^[n] idx)) →
      (∀ n, n < m → clStep^[n + 1] idx ≠ last) →
      t.table (clStep^[m] idx) ≠ 0 →
      hash = t.table (clStep^[m] idx) &&& MASK_HASH →
      payloadMatches t custom a2 b2 (t.table (clStep^[m] idx) &&& MASK_INDEX) = true →
      t.table (clStep^[m] idx) &&& MASK_INDEX = i →
      scanLine a2 b2 custom hash last k idx 0 t ctx = .done (.ok i false) t ctx := by
  intro m
  induction m with
  | zero =>
    intro k idx hk hvisited hwrap hnz htag hpm hidx
    simp only [Function.iterate_zero, id_eq] at hnz htag hpm hidx
    match k, hk with
    | k + 1, _ =>
      rw [scanLine]
      simp only []
      rw [if_neg hnz, if_pos ⟨htag, hpm⟩, hidx]
      simp only [if_neg (by omega : ¬ ((0 : Nat) ≠ 0))]
  | succ m ih =>
    intro k idx hk hvisited hwrap hnz htag hpm hidx
    match k, hk with
    | k + 1, _ =>
      have h0 := hvisited 0 (by omega)
      rw [slotTargeted] at h0
      simp only [Function.iterate_zero, id_eq] at h0
      obtain ⟨hnz0, htarget0⟩ := h0
      rw [scanLine]
      simp only []
      rw [if_neg hnz0]
      by_cases hmatch : hash = t.table idx &&& MASK_HASH ∧
          payloadMatches t custom a2 b2 (t.table idx &&& MASK_INDEX) = true
      · rw [if_pos hmatch]
        have hi : t.table idx &&& MASK_INDEX = i := htarget0 hmatch.1 hmatch.2
        rw [hi]
        simp only [if_neg (by omega : ¬ ((0 : Nat) ≠ 0))]
      · rw [if_neg hmatch]
        have hws : clStep idx ≠ last := by
          have := hwrap 0 (by omega)
          simpa using this
        rw [if_neg hws]
        apply ih (show m < k by omega)
        · intro n hn
          have := hvisited (n + 1) (by omega)
          rw [Function.iterate_succ_apply] at this
          exact this
        · intro n hn
          have := hwrap (n + 1) (by omega)
          rw [show n + 1 + 1 = (n + 1) + 1 from rfl, Function.iterate_succ_apply] at this
          exact this
        · rw [← Function.iterate_succ_apply]
          exact hnz
        · rw [← Function.iterate_succ_apply]
          exact htag
        · rw [← Function.iterate_succ_apply]
          exact hpm
        · rw [← Function.iterate_succ_apply]
          exact hidx

theorem set_custom_bucket_table (s : LLMSSet) (i : Nat) (c : Bool) :
    (set_custom_bucket s i c).table = s.table := by
  unfold set_custom_bucket setBit2 clearBit2
  split_ifs <;> rfl

theorem set_custom_bucket_data (s : LLMSSet) (i : Nat) (c : Bool) :
    (set_custom_bucket s i c).data = s.data := by
  unfold set_custom_bucket setBit2 clearBit2
  split_ifs <;> rfl

theorem set_custom_bucket_bitmap3 (s : LLMSSet) (i : Nat) (c : Bool) :
    (set_custom_bucket s i c).bitmap3 = s.bitmap3 := by
  unfold set_custom_bucket setBit2 clearBit2
  split_ifs <;> rfl

theorem set_custom_bucket_bitmap2 (s : LLMSSet) (i : Nat) (c : Bool) :
    (set_custom_bucket s i c).bitmap2
      = fun q => if q = i then c else s.bitmap2 q := by
  unfold set_custom_bucket setBit2 clearBit2
  rcases c with _ | _ <;> simp

theorem set_custom_bucket_cfg (s : LLMSSet) (i : Nat) (c : Bool) :
    SameCfg s (set_custom_bucket s i c) := by
  unfold set_custom_bucket setBit2 clearBit2
  split_ifs <;> exact ⟨rfl, rfl, rfl, rfl, rfl, rfl, rfl⟩

theorem setSlot_table (s : LLMSSet) (p v : Nat) :
    (setSlot s p v).table = fun q => if q = p then v else s.table q := rfl

theorem setSlot_data (s : LLMSSet) (p v : Nat) :
    (setSlot s p v).data = s.data := rfl

theorem setSlot_bitmap2 (s : LLMSSet) (p v : Nat) :
    (setSlot s p v).bitmap2 = s.bitmap2 := rfl

theorem setSlot_bitmap3 (s : LLMSSet) (p v : Nat) :
    (setSlot s p v).bitmap3 = s.bitmap3 := rfl

theorem writeData_table (s : LLMSSet) (i aa bb : Nat) :
    (writeData s i aa bb).table = s.table := rfl

theorem writeData_data (s : LLMSSet) (i aa bb : Nat) :
    (writeData s i aa bb).data
      = fun q => if q = i then (aa, bb) else s.data q := rfl

theorem writeData_bitmap2 (s : LLMSSet) (i aa bb : Nat) :
    (writeData s i aa bb).bitmap2 = s.bitmap2 := rfl

theorem writeData_bitmap3 (s : LLMSSet) (i aa bb : Nat) :
    (writeData s i aa bb).bitmap3 = s.bitmap3 := rfl

theorem lookupLines_create_core {a b : Nat} {custom : Bool} {hash : Nat}
    (hhash : hash &&& MASK_HASH = hash)
    {hr : Nat} {s : LLMSSet} {ctx : WorkerCtx} {i : Nat} {s1 : LLMSSet}
    {ctx1 : WorkerCtx}
    (hInv : TblInv s) (hctx : CtxOk s ctx)
    (hscan : scanLine a b custom hash (firstIdx s hr) 8 (firstIdx s hr) 0 s ctx
      = .done (.ok i true) s1 ctx1) :
    (∃ p, s.table p = 0 ∧
      s1.table = fun q => if q = p then hash ||| i else s.table q) ∧
    (s1.data = fun q => if q = i then (a, b) else s.data q) ∧
    (s1.bitmap2 = fun q => if q = i then
        (if custom then true else if s.hash_cb.isSome then false else true)
      else s.bitmap2 q) ∧
    s1.bitmap3 = s.bitmap3 ∧ SameCfg s s1 ∧
    s.bitmap2 i = false ∧ 2 ≤ i ∧ i < s.table_size ∧
    (∀ lines a2 b2 : Nat,
      (∀ h0, hashStep s custom a2 b2 h0 = hashStep s custom a b h0) →
      (∀ x y, matchesPair s custom a2 b2 x y = matchesPair s custom a b x y) →
      matchesPair s custom a2 b2 a b = true →
      lookupLines a2 b2 custom hash lines hr 0 s1 ctx1 = ⟨.ok i false, s1, ctx1⟩) := by
  obtain ⟨m, hm8, hmiss, hwrap, hempty, s2, hclaim, hpub⟩ := scanLine_create hscan
  have hreg : 1 ≤ numRegions s := by
    have h512 := hInv.ts_ge
    rw [numRegions]
    omega
  obtain ⟨hb2i, hibound, hs2t, hs2d, hs2b3, hs2cfg, hs2b2⟩ :=
    claim_data_bucket_some hclaim hctx hreg
  have hilt : i < s.table_size := by
    have : 512 * numRegions s ≤ s.table_size := by
      rw [numRegions]
      omega
    omega
  have hige2 : 2 ≤ i := by
    rcases Nat.lt_or_ge i 2 with h2 | h2
    · interval_cases i
      · rw [hInv.b2_zero] at hb2i
        exact absurd hb2i (by simp)
      · rw [hInv.b2_one] at hb2i
        exact absurd hb2i (by simp)
    · exact h2
  have hi44 : i < 2 ^ 44 := lt_of_lt_of_le hilt hInv.ts_le
  have hine : i ≠ 0 := by omega
  have hcb3 : (setSlot (writeData s2 i a b) (clStep^[m] (firstIdx s hr))
      (hash ||| i)).hash_cb = s.hash_cb := by
    show s2.hash_cb = s.hash_cb
    exact hs2cfg.2.2.2.2.1
  have htab : s1.table = fun q =>
      if q = clStep^[m] (firstIdx s hr) then hash ||| i else s.table q := by
    rw [hpub]
    split_ifs <;>
      simp only [set_custom_bucket_table, setSlot_table, writeData_table, hs2t]
  have hdata : s1.data = fun q => if q = i then (a, b) else s.data q := by
    rw [hpub]
    split_ifs <;>
      simp only [set_custom_bucket_data, setSlot_data, writeData_data, hs2d]
  have hb3 : s1.bitmap3 = s.bitmap3 := by
    rw [hpub]
    split_ifs <;>
      simp only [set_custom_bucket_bitmap3, setSlot_bitmap3, writeData_bitmap3, hs2b3]
  have hcfg : SameCfg s s1 := by
    rw [hpub]
    split_ifs
    · exact SameCfg_trans hs2cfg
        (set_custom_bucket_cfg (setSlot (writeData s2 i a b)
          (clStep^[m] (firstIdx s hr)) (hash ||| i)) i custom)
    · exact hs2cfg
  have hb2 : s1.bitmap2 = fun q => if q = i then
      (if custom then true else if s.hash_cb.isSome then false else true)
      else s.bitmap2 q := by
    rw [hpub]
    by_cases hcust : custom
    · rw [if_pos (by simp [hcust])]
      simp only [set_custom_bucket_bitmap2, setSlot_bitmap2, writeData_bitmap2, hs2b2]
      funext q
      by_cases hq : q = i <;> simp [hq, hcust]
    · by_cases hsome : s.hash_cb.isSome
      · rw [if_pos (by simp [hcb3, hsome])]
        simp only [set_custom_bucket_bitmap2, setSlot_bitmap2, writeData_bitmap2, hs2b2]
        funext q
        by_cases hq : q = i <;> simp [hq, hcust, hsome]
      · rw [if_neg (by simp [hcb3, hcust, hsome])]
        simp only [setSlot_bitmap2, writeData_bitmap2, hs2b2]
        funext q
        by_cases hq : q = i <;> simp [hq, hcust, hsome]
  refine ⟨⟨clStep^[m] (firstIdx s hr), hempty, htab⟩, hdata, hb2, hb3, hcfg,
    hb2i, hige2, hilt, ?_⟩
  intro lines a2 b2 Hh Hm Hrefl
  rw [lookupLines]
  rw [firstIdx_congr hcfg]
  have htargets : ∀ n, n < m →
      slotTargeted s1 custom a2 b2 hash i (clStep^[n] (firstIdx s hr)) := by
    intro n hn
    obtain ⟨hnz, hnomatch⟩ := hmiss n hn
    have hne : clStep^[n] (firstIdx s hr) ≠ clStep^[m] (firstIdx s hr) := by
      intro he
      rw [he] at hnz
      exact hnz hempty
    have htn : s1.table (clStep^[n] (firstIdx s hr))
        = s.table (clStep^[n] (firstIdx s hr)) := by
      rw [htab]
      simp [hne]
    constructor
    · rw [htn]
      exact hnz
    · intro htag hpm
      rw [htn] at htag hpm ⊢
      by_contra hdne
      apply hnomatch
      refine ⟨htag, ?_⟩
      have hdd : s1.data (s.table (clStep^[n] (firstIdx s hr)) &&& MASK_INDEX)
          = s.data (s.table (clStep^[n] (firstIdx s hr)) &&& MASK_INDEX) := by
        rw [hdata]
        simp [hdne]
      rw [payloadMatches_matchesPair, hdd,
        matchesPair_congr hcfg.2.2.2.2.2.1, Hm,
        ← payloadMatches_matchesPair] at hpm
      exact hpm
  have hp1 : s1.table (clStep^[m] (firstIdx s hr)) = hash ||| i := by
    rw [htab]
    simp
  have hscanR : scanLine a2 b2 custom hash (firstIdx s hr) 8 (firstIdx s hr) 0 s1 ctx1
      = .done (.ok i false) s1 ctx1 := by
    apply scanLine_retrace_hit hm8 htargets hwrap
    · rw [hp1]
      exact lor_ne_zero_right hine
    · rw [hp1, tag_lor_hash hhash hi44]
    · rw [hp1, tag_lor_index hhash hi44, payloadMatches_matchesPair]
      have hd1 : s1.data i = (a, b) := by
        rw [hdata]
        simp
      rw [hd1, matchesPair_congr hcfg.2.2.2.2.2.1]
      exact Hrefl
    · rw [hp1, tag_lor_index hhash hi44]
  rw [hscanR]

theorem lookupLines_create_master {a b : Nat} {custom : Bool} {hash : Nat}
    (hhash : hash &&& MASK_HASH = hash) :
    ∀ {lines hr : Nat} {s : LLMSSet} {ctx : WorkerCtx} {i : Nat} {s1 : LLMSSet}
      {ctx1 : WorkerCtx},
      TblInv s → CtxOk s ctx →
      lookupLines a b custom hash lines hr 0 s ctx = ⟨.ok i true, s1, ctx1⟩ →
      (∃ p, s.table p = 0 ∧
        s1.table = fun q => if q = p then hash ||| i else s.table q) ∧
      (s1.data = fun q => if q = i then (a, b) else s.data q) ∧
      (s1.bitmap2 = fun q => if q = i then
          (if custom then true else if s.hash_cb.isSome then false else true)
        else s.bitmap2 q) ∧
      s1.bitmap3 = s.bitmap3 ∧ SameCfg s s1 ∧
      s.bitmap2 i = false ∧ 2 ≤ i ∧ i < s.table_size ∧
      (∀ a2 b2 : Nat,
        (∀ h0, hashStep s custom a2 b2 h0 = hashStep s custom a b h0) →
        (∀ x y, matchesPair s custom a2 b2 x y = matchesPair s custom a b x y) →
        matchesPair s custom a2 b2 a b = true →
        lookupLines a2 b2 custom hash lines hr 0 s1 ctx1 = ⟨.ok i false, s1, ctx1⟩) := by
  intro lines
  induction lines with
  | zero =>
    intro hr s ctx i s1 ctx1 hInv hctx h
    rw [lookupLines] at h
    rcases hscan : scanLine a b custom hash (firstIdx s hr) 8 (firstIdx s hr) 0 s ctx
      with ⟨out', s', ctx'⟩ | ⟨s', ctx', c'⟩
    · rw [hscan] at h
      simp only [] at h
      obtain ⟨ho, hs', hc'⟩ := LKRes.mk.inj h
      subst ho
      subst hs'
      subst hc'
      obtain ⟨hA, hB, hC, hD, hE, hF, hG, hH, hR⟩ :=
        lookupLines_create_core hhash hInv hctx hscan
      exact ⟨hA, hB, hC, hD, hE, hF, hG, hH, fun a2 b2 u1 u2 u3 => hR 0 a2 b2 u1 u2 u3⟩
    · rw [hscan] at h
      simp only [] at h
      exact absurd (LKRes.mk.inj h).1 (by simp)
  | succ l ih =>
    intro hr s ctx i s1 ctx1 hInv hctx h
    rw [lookupLines] at h
    rcases hscan : scanLine a b custom hash (firstIdx s hr) 8 (firstIdx s hr) 0 s ctx
      with ⟨out', s', ctx'⟩ | ⟨s', ctx', c'⟩
    · rw [hscan] at h
      simp only [] at h
      obtain ⟨ho, hs', hc'⟩ := LKRes.mk.inj h
      subst ho
      subst hs'
      subst hc'
      obtain ⟨hA, hB, hC, hD, hE, hF, hG, hH, hR⟩ :=
        lookupLines_create_core hhash hInv hctx hscan
      exact ⟨hA, hB, hC, hD, hE, hF, hG, hH,
        fun a2 b2 u1 u2 u3 => hR (l + 1) a2 b2 u1 u2 u3⟩
    · rw [hscan] at h
      simp only [] at h
      obtain ⟨he1, he2, he3, m, hm8, hmiss, hwrap, hlast⟩ := scanLine_next hscan
      rw [he1, he2, he3] at h
      obtain ⟨⟨p, hp0, htab⟩, hdata, hb2, hb3, hcfg, hb2i, hige2, hilt, hretr⟩ :=
        ih hInv hctx h
      refine ⟨⟨p, hp0, htab⟩, hdata, hb2, hb3, hcfg, hb2i, hige2, hilt, ?_⟩
      intro a2 b2 Hh Hm Hrefl
      rw [lookupLines]
      rw [firstIdx_congr hcfg]
      have htargets : ∀ n, n < 8 →
          (∀ j, j < n → clStep^[j + 1] (firstIdx s hr) ≠ firstIdx s hr) →
          slotTargeted s1 custom a2 b2 hash i (clStep^[n] (firstIdx s hr)) := by
        intro n hn hvis
        have hnm : n ≤ m := by
          by_contra hgt
          exact hvis m (by omega) hlast
        have hmn := hmiss n hnm
        obtain ⟨hnz, hnomatch⟩ := hmn
        have hne : clStep^[n] (firstIdx s hr) ≠ p := by
          intro he
          rw [he] at hnz
          exact hnz hp0
        have htn : s1.table (clStep^[n] (firstIdx s hr))
            = s.table (clStep^[n] (firstIdx s hr)) := by
          rw [htab]
          simp [hne]
        constructor
        · rw [htn]
          exact hnz
        · intro htag hpm
          rw [htn] at htag hpm ⊢
          by_contra hdne
          apply hnomatch
          refine ⟨htag, ?_⟩
          have hdd : s1.data (s.table (clStep^[n] (firstIdx s hr)) &&& MASK_INDEX)
              = s.data (s.table (clStep^[n] (firstIdx s hr)) &&& MASK_INDEX) := by
            rw [hdata]
            simp [hdne]
          rw [payloadMatches_matchesPair, hdd,
            matchesPair_congr hcfg.2.2.2.2.2.1, Hm,
            ← payloadMatches_matchesPair] at hpm
          exact hpm
      rcases scanLine_retrace ⟨m, hm8, hwrap, hlast⟩ htargets with hA | hA
      · rw [hA]
        simp only []
        have hstep : hashStep s1 custom a2 b2 hr = hashStep s custom a b hr := by
          rw [hashStep_congr hcfg.2.2.2.2.1, Hh]
        rw [hstep]
        exact hretr a2 b2 Hh Hm Hrefl
      · rw [hA]

theorem lookupLines_found_state {a b : Nat} {custom : Bool} {hash : Nat} :
    ∀ {lines hr : Nat} {s : LLMSSet} {ctx : WorkerCtx} {i : Nat} {s1 : LLMSSet}
      {ctx1 : WorkerCtx},
      lookupLines a b custom hash lines hr 0 s ctx = ⟨.ok i false, s1, ctx1⟩ →
      s1 = s ∧ ctx1 = ctx := by
  intro lines
  induction lines with
  | zero =>
    intro hr s ctx i s1 ctx1 h
    rw [lookupLines] at h
    rcases hscan : scanLine a b custom hash (firstIdx s hr) 8 (firstIdx s hr) 0 s ctx
      with ⟨out', s', ctx'⟩ | ⟨s', ctx', c'⟩
    · rw [hscan] at h
      simp only [] at h
      obtain ⟨ho, hs', hc'⟩ := LKRes.mk.inj h
      subst ho
      subst hs'
      subst hc'
      exact scanLine_found_state hscan
    · rw [hscan] at h
      simp only [] at h
      exact absurd (LKRes.mk.inj h).1 (by simp)
  | succ l ih =>
    intro hr s ctx i s1 ctx1 h
    rw [lookupLines] at h
    rcases hscan : scanLine a b custom hash (firstIdx s hr) 8 (firstIdx s hr) 0 s ctx
      with ⟨out', s', ctx'⟩ | ⟨s', ctx', c'⟩
    · rw [hscan] at h
      simp only [] at h
      obtain ⟨ho, hs', hc'⟩ := LKRes.mk.inj h
      subst ho
      subst hs'
      subst hc'
      exact scanLine_found_state hscan
    · rw [hscan] at h
      simp only [] at h
      obtain ⟨he1, he2, he3, -⟩ := scanLine_next hscan
      rw [he1, he2, he3] at h
      exact ih h

theorem lookupLines_full_state {a b : Nat} {custom : Bool} {hash : Nat} :
    ∀ {lines hr : Nat} {s : LLMSSet} {ctx : WorkerCtx} {s1 : LLMSSet}
      {ctx1 : WorkerCtx},
      lookupLines a b custom hash lines hr 0 s ctx = ⟨.full, s1, ctx1⟩ →
      s1 = s ∧ ctx1 = ctx := by
  intro lines
  induction lines with
  | zero =>
    intro hr s ctx s1 ctx1 h
    rw [lookupLines] at h
    rcases hscan : scanLine a b custom hash (firstIdx s hr) 8 (firstIdx s hr) 0 s ctx
      with ⟨out', s', ctx'⟩ | ⟨s', ctx', c'⟩
    · rw [hscan] at h
      simp only [] at h
      obtain ⟨ho, hs', hc'⟩ := LKRes.mk.inj h
      subst ho
      subst hs'
      subst hc'
      exact scanLine_full_state hscan
    · rw [hscan] at h
      simp only [] at h
      obtain ⟨-, hs', hc'⟩ := LKRes.mk.inj h
      obtain ⟨he1, he2, -, -⟩ := scanLine_next hscan
      exact ⟨hs' ▸ he1, hc' ▸ he2⟩
  | succ l ih =>
    intro hr s ctx s1 ctx1 h
    rw [lookupLines] at h
    rcases hscan : scanLine a b custom hash (firstIdx s hr) 8 (firstIdx s hr) 0 s ctx
      with ⟨out', s', ctx'⟩ | ⟨s', ctx', c'⟩
    · rw [hscan] at h
      simp only [] at h
      obtain ⟨ho, hs', hc'⟩ := LKRes.mk.inj h
      subst ho
      subst hs'
      subst hc'
      exact scanLine_full_state hscan
    · rw [hscan] at h
      simp only [] at h
      obtain ⟨he1, he2, he3, -⟩ := scanLine_next hscan
      rw [he1, he2, he3] at h
      exact ih h

theorem lookupLines_nospace_state {a b : Nat} {custom : Bool} {hash : Nat} :
    ∀ {lines hr : Nat} {s : LLMSSet} {ctx : WorkerCtx} {s1 : LLMSSet}
      {ctx1 : WorkerCtx},
      lookupLines a b custom hash lines hr 0 s ctx = ⟨.nospace, s1, ctx1⟩ →
      s1.table = s.table ∧ s1.data = s.data ∧ s1.bitmap2 = s.bitmap2 ∧
      s1.bitmap3 = s.bitmap3 ∧ SameCfg s s1 := by
  intro lines
  induction lines with
  | zero =>
    intro hr s ctx s1 ctx1 h
    rw [lookupLines] at h
    rcases hscan : scanLine a b custom hash (firstIdx s hr) 8 (firstIdx s hr) 0 s ctx
      with ⟨out', s', ctx'⟩ | ⟨s', ctx', c'⟩
    · rw [hscan] at h
      simp only [] at h
      obtain ⟨ho, hs', hc'⟩ := LKRes.mk.inj h
      subst ho
      subst hs'
      subst hc'
      exact claim_data_bucket_none (scanLine_nospace_state hscan)
    · rw [hscan] at h
      simp only [] at h
      exact absurd (LKRes.mk.inj h).1 (by simp)
  | succ l ih =>
    intro hr s ctx s1 ctx1 h
    rw [lookupLines] at h
    rcases hscan : scanLine a b custom hash (firstIdx s hr) 8 (firstIdx s hr) 0 s ctx
      with ⟨out', s', ctx'⟩ | ⟨s', ctx', c'⟩
    · rw [hscan] at h
      simp only [] at h
      obtain ⟨ho, hs', hc'⟩ := LKRes.mk.inj h
      subst ho
      subst hs'
      subst hc'
      exact claim_data_bucket_none (scanLine_nospace_state hscan)
    · rw [hscan] at h
      simp only [] at h
      obtain ⟨he1, he2, he3, -⟩ := scanLine_next hscan
      rw [he1, he2, he3] at h
      exact ih h

theorem egTable512_inv : TblInv egTable512 :=
  ⟨by decide, by decide, by decide, by decide, by decide, fun _ h => absurd rfl h⟩

theorem egTableCustom_inv : TblInv egTableCustom :=
  ⟨by decide, by decide, by decide, by decide, by decide, fun _ h => absurd rfl h⟩

/-- C1: on a quiesced table, once a lookup has inserted a payload and
returned `(i, created = true)`, a later lookup with an equal payload — the
same words on the default path, a pair the registered callbacks cannot tell
apart on the custom path — returns the same index `i` with
`created = false`, leaving the table and the worker context unchanged. -/
theorem C1_lookup_dedup {s : LLMSSet} {ctx : WorkerCtx} {a b : Nat}
    {custom : Bool} {i : Nat} {s1 : LLMSSet} {ctx1 : WorkerCtx} (a2 b2 : Nat)
    (hInv : TblInv s) (hctx : CtxOk s ctx)
    (hrun : llmsset_lookup2 s ctx a b custom = ⟨.ok i true, s1, ctx1⟩)
    (Hh : ∀ h0, hashStep s custom a2 b2 h0 = hashStep s custom a b h0)
    (Hm : ∀ x y, matchesPair s custom a2 b2 x y = matchesPair s custom a b x y)
    (Hrefl : matchesPair s custom a2 b2 a b = true) :
    llmsset_lookup2 s1 ctx1 a2 b2 custom = ⟨.ok i false, s1, ctx1⟩ ∧ 2 ≤ i := by
  rw [llmsset_lookup2] at hrun
  obtain ⟨-, -, -, -, hcfg, -, hige2, -, hretr⟩ :=
    lookupLines_create_master (land_maskHash_idem (hashStep s custom a b fnvSeed))
      hInv hctx hrun
  refine ⟨?_, hige2⟩
  rw [llmsset_lookup2]
  have hstep : hashStep s1 custom a2 b2 fnvSeed
      = hashStep s custom a b fnvSeed := by
    rw [hashStep_congr hcfg.2.2.2.2.1, Hh]
  rw [hstep, hcfg.2.1]
  exact hretr a2 b2 Hh Hm Hrefl

theorem C1_lookup_dedup_witness :
    (llmsset_lookup egTable512 egCtx 7 11).out = .ok 2 true ∧
    (llmsset_lookup (llmsset_lookup egTable512 egCtx 7 11).st
        (llmsset_lookup egTable512 egCtx 7 11).ctx 7 11).out = .ok 2 false := by
  have hout : (llmsset_lookup egTable512 egCtx 7 11).out = .ok 2 true := by decide
  have hrun : llmsset_lookup2 egTable512 egCtx 7 11 false =
      ⟨.ok 2 true, (llmsset_lookup egTable512 egCtx 7 11).st,
        (llmsset_lookup egTable512 egCtx 7 11).ctx⟩ := by
    calc llmsset_lookup2 egTable512 egCtx 7 11 false
        = ⟨(llmsset_lookup egTable512 egCtx 7 11).out,
           (llmsset_lookup egTable512 egCtx 7 11).st,
           (llmsset_lookup egTable512 egCtx 7 11).ctx⟩ := rfl
      _ = _ := by rw [hout]
  obtain ⟨hsecond, -⟩ := C1_lookup_dedup 7 11 egTable512_inv (Or.inl rfl) hrun
    (fun _ => rfl) (fun _ _ => rfl) (by decide)
  refine ⟨hout, ?_⟩
  rw [llmsset_lookup, hsecond]

/-- C10: when a custom hash callback is registered, a lookup on the default
(non-custom) path that creates a new entry clears the `bitmap2` occupancy bit
of the index it returns, so `llmsset_is_marked` reads `false` on that index
immediately afterwards. -/
theorem C10_default_create_unmarks {s : LLMSSet} {ctx : WorkerCtx} {a b i : Nat}
    {s1 : LLMSSet} {ctx1 : WorkerCtx}
    (hInv : TblInv s) (hctx : CtxOk s ctx) (hcb : s.hash_cb.isSome = true)
    (hrun : llmsset_lookup s ctx a b = ⟨.ok i true, s1, ctx1⟩) :
    s1.bitmap2 i = false ∧ llmsset_is_marked s1 i = false := by
  rw [llmsset_lookup, llmsset_lookup2] at hrun
  obtain ⟨-, -, hb2, -, -, -, -, -, -⟩ :=
    lookupLines_create_master (land_maskHash_idem (hashStep s false a b fnvSeed))
      hInv hctx hrun
  have hbit : s1.bitmap2 i = false := by
    rw [hb2]
    simp [hcb]
  exact ⟨hbit, hbit⟩

theorem C10_default_create_unmarks_witness :
    (llmsset_lookup egTableCustom egCtx 7 11).out = .ok 2 true ∧
    llmsset_is_marked (llmsset_lookup egTableCustom egCtx 7 11).st 2 = false := by
  have hout : (llmsset_lookup egTableCustom egCtx 7 11).out = .ok 2 true := by
    decide
  have hrun : llmsset_lookup egTableCustom egCtx 7 11 =
      ⟨.ok 2 true, (llmsset_lookup egTableCustom egCtx 7 11).st,
        (llmsset_lookup egTableCustom egCtx 7 11).ctx⟩ := by
    calc llmsset_lookup egTableCustom egCtx 7 11
        = ⟨(llmsset_lookup egTableCustom egCtx 7 11).out,
           (llmsset_lookup egTableCustom egCtx 7 11).st,
           (llmsset_lookup egTableCustom egCtx 7 11).ctx⟩ := rfl
      _ = _ := by rw [hout]
  obtain ⟨-, hmk⟩ := C10_default_create_unmarks egTableCustom_inv (Or.inl rfl)
    rfl hrun
  exact ⟨hout, hmk⟩

/-- C2 counterexample: with a custom hash callback registered, a default-path
insert publishes a directory slot whose index field has its `bitmap2` bit
clear — the exact opposite of the claimed occupancy invariant. -/
theorem C2_counterexample :
    (llmsset_lookup egTableCustom egCtx 7 11).st.table 44 ≠ 0 ∧
    (llmsset_lookup egTableCustom egCtx 7 11).st.bitmap2
      ((llmsset_lookup egTableCustom egCtx 7 11).st.table 44 &&& MASK_INDEX)
      = false := by
  exact ⟨by decide, by decide⟩

/-- C2 (amended): the occupancy-consistency invariant — every non-zero
directory slot's low-44-bit index has its `bitmap2` bit set — is preserved by
`llmsset_lookup2` whenever the call is a custom one or no custom hash
callback is registered, and on creation the payload `(a, b)` is stored at the
returned index before the directory slot is published. -/
theorem C2_occupancy_preserved {s : LLMSSet} {ctx : WorkerCtx} {a b : Nat}
    {custom : Bool} {out : LKOut} {s1 : LLMSSet} {ctx1 : WorkerCtx}
    (hInv : TblInv s) (hctx : CtxOk s ctx)
    (hsafe : custom = true ∨ s.hash_cb = none)
    (hrun : llmsset_lookup2 s ctx a b custom = ⟨out, s1, ctx1⟩) :
    (∀ q, s1.table q ≠ 0 → s1.bitmap2 (s1.table q &&& MASK_INDEX) = true) ∧
    (∀ i, out = .ok i true → s1.data i = (a, b)) := by
  rw [llmsset_lookup2] at hrun
  cases out with
  | full =>
    obtain ⟨hs1, -⟩ := lookupLines_full_state hrun
    subst hs1
    exact ⟨hInv.tbl_b2, fun i h => absurd h (by simp)⟩
  | nospace =>
    obtain ⟨ht, hd, hb2, -, -⟩ := lookupLines_nospace_state hrun
    refine ⟨?_, fun i h => absurd h (by simp)⟩
    intro q hq
    rw [ht, hb2]
    rw [ht] at hq
    exact hInv.tbl_b2 q hq
  | ok i created =>
    cases created with
    | false =>
      obtain ⟨hs1, -⟩ := lookupLines_found_state hrun
      subst hs1
      exact ⟨hInv.tbl_b2, fun j h => absurd h (by simp)⟩
    | true =>
      obtain ⟨⟨p, hp0, htab⟩, hdata, hb2, -, -, hb2i, -, hilt, -⟩ :=
        lookupLines_create_master
          (land_maskHash_idem (hashStep s custom a b fnvSeed)) hInv hctx hrun
      have hi44 : i < 2 ^ 44 := lt_of_lt_of_le hilt hInv.ts_le
      have hb2itrue : s1.bitmap2 i = true := by
        rw [hb2]
        rcases hsafe with hs | hs <;> simp [hs]
      refine ⟨?_, ?_⟩
      · intro q hq
        rw [htab] at hq
        rw [htab]
        simp only [] at hq ⊢
        by_cases hqp : q = p
        · rw [if_pos hqp] at hq ⊢
          rw [tag_lor_index (land_maskHash_idem (hashStep s custom a b fnvSeed))
            hi44]
          exact hb2itrue
        · rw [if_neg hqp] at hq ⊢
          have hold := hInv.tbl_b2 q hq
          have hne : s.table q &&& MASK_INDEX ≠ i := by
            intro he
            rw [he, hb2i] at hold
            exact Bool.false_ne_true hold
          rw [hb2]
          simp only [if_neg hne]
          exact hold
      · intro j hj
        injection hj with hij hcr
        subst hij
        rw [hdata]
        simp

theorem C2_occupancy_preserved_witness :
    (llmsset_lookup egTable512 egCtx 7 11).st.bitmap2
      ((llmsset_lookup egTable512 egCtx 7 11).st.table 44 &&& MASK_INDEX)
      = true ∧
    (llmsset_lookup egTable512 egCtx 7 11).st.data 2 = (7, 11) := by
  have hout : (llmsset_lookup egTable512 egCtx 7 11).out = .ok 2 true := by decide
  have hrun : llmsset_lookup2 egTable512 egCtx 7 11 false =
      ⟨(llmsset_lookup egTable512 egCtx 7 11).out,
       (llmsset_lookup egTable512 egCtx 7 11).st,
       (llmsset_lookup egTable512 egCtx 7 11).ctx⟩ := rfl
  obtain ⟨hocc, hdata⟩ := C2_occupancy_preserved egTable512_inv (Or.inl rfl)
    (Or.inr rfl) hrun
  exact ⟨hocc 44 (by decide), hdata 2 hout⟩

theorem rehashSerialLoop_eq_fold (s : LLMSSet) (first count : Nat) :
    rehashSerialLoop s first count
      = (List.range count).foldl (rehashBody first) (true, s) := rfl

theorem rehashFold_acc (first : Nat) :
    ∀ (l : List Nat) (b : Bool) (s : LLMSSet),
      l.foldl (rehashBody first) (b, s)
        = (b && (l.foldl (rehashBody first) (true, s)).1,
           (l.foldl (rehashBody first) (true, s)).2) := by
  intro l
  induction l with
  | nil =>
    intro b s
    simp
  | cons k t ih =>
    intro b s
    simp only [List.foldl_cons, rehashBody]
    by_cases hb : (b, s).2.bitmap2 (first + k) = true
    · rw [if_pos hb, if_pos hb]
      rw [ih, ih (true && (llmsset_rehash_bucket (b, s).2 (first + k)).1)]
      simp [Bool.and_assoc]
    · rw [if_neg hb, if_neg hb]
      exact ih b s

theorem rehashSerialLoop_append (s : LLMSSet) (first m n : Nat) :
    rehashSerialLoop s first (m + n)
      = ((rehashSerialLoop s first m).1
           && (rehashSerialLoop (rehashSerialLoop s first m).2 (first + m) n).1,
         (rehashSerialLoop (rehashSerialLoop s first m).2 (first + m) n).2) := by
  simp only [rehashSerialLoop_eq_fold]
  rw [List.range_add, List.foldl_append, List.foldl_map]
  have hbody : (fun (p : Bool × LLMSSet) k => rehashBody first p (m + k))
      = rehashBody (first + m) := by
    funext p k
    simp [rehashBody, Nat.add_assoc]
  rw [hbody]
  rw [show (List.range m).foldl (rehashBody first) (true, s)
      = (((List.range m).foldl (rehashBody first) (true, s)).1,
         ((List.range m).foldl (rehashBody first) (true, s)).2) from rfl]
  rw [rehashFold_acc]

theorem rehashSerialLoop_skip (s : LLMSSet) (first count : Nat)
    (h : ∀ k, k < count → s.bitmap2 (first + k) = false) :
    rehashSerialLoop s first count = (true, s) := by
  induction count with
  | zero => rfl
  | succ n ih =>
    rw [rehashSerialLoop_eq_fold, List.range_succ, List.foldl_append,
      ← rehashSerialLoop_eq_fold, ih (fun k hk => h k (by omega))]
    simp [rehashBody, h n (by omega)]

theorem rehashParGo_eq_serial :
    ∀ (fuel : Nat) (s : LLMSSet) (first count : Nat),
      rehashParGo fuel s first count = rehashSerialLoop s first count := by
  intro fuel
  induction fuel with
  | zero =>
    intro s first count
    rfl
  | succ fuel ih =>
    intro s first count
    rw [rehashParGo]
    by_cases hc : 1024 < count
    · rw [if_pos hc]
      simp only []
      rw [ih, ih]
      have happ := rehashSerialLoop_append s first (count / 2) (count - count / 2)
      rw [show count / 2 + (count - count / 2) = count by omega] at happ
      exact happ.symm
    · rw [if_neg hc]

theorem rehashScanLine_next_char {new_v last : Nat} :
    ∀ {k idx : Nat} {s s1 : LLMSSet},
      rehashScanLine new_v last k idx s = .next s1 →
      s1 = s ∧ ∃ m, m < k ∧
        (∀ n, n ≤ m → s.table (clStep^[n] idx) ≠ 0) ∧
        (∀ n, n < m → clStep^[n + 1] idx ≠ last) ∧
        clStep^[m + 1] idx = last := by
  intro k
  induction k with
  | zero =>
    intro idx s s1 h
    rw [rehashScanLine] at h
    exact absurd h (by simp)
  | succ k ih =>
    intro idx s s1 h
    rw [rehashScanLine] at h
    by_cases hv : s.table idx = 0
    · rw [if_pos hv] at h
      exact absurd h (by simp)
    · rw [if_neg hv] at h
      simp only [] at h
      by_cases hw : clStep idx = last
      · rw [if_pos hw] at h
        injection h with hs1
        subst hs1
        refine ⟨rfl, 0, by omega, ?_, by omega, by simpa using hw⟩
        intro n hn
        have : n = 0 := by omega
        subst this
        simpa using hv
      · rw [if_neg hw] at h
        obtain ⟨hs1, m, hmk, hnz, hwrap, hlast⟩ := ih h
        refine ⟨hs1, m + 1, by omega, ?_, ?_, ?_⟩
        · intro n hn
          match n with
          | 0 => simpa using hv
          | n + 1 =>
            rw [Function.iterate_succ_apply]
            exact hnz n (by omega)
        · intro n hn
          match n with
          | 0 => simpa using hw
          | n + 1 =>
            rw [show n + 1 + 1 = (n + 1) + 1 from rfl, Function.iterate_succ_apply]
            exact hwrap n (by omega)
        · rw [Function.iterate_succ_apply]
          exact hlast

theorem rehashScanLine_done_true_char {new_v last : Nat} :
    ∀ {k idx : Nat} {s s1 : LLMSSet},
      rehashScanLine new_v last k idx s = .done true s1 →
      ∃ m, m < k ∧
        (∀ n, n < m → s.table (clStep^[n] idx) ≠ 0) ∧
        (∀ n, n < m → clStep^[n + 1] idx ≠ last) ∧
        s.table (clStep^[m] idx) = 0 ∧
        s1 = setSlot s (clStep^[m] idx) new_v := by
  intro k
  induction k with
  | zero =>
    intro idx s s1 h
    rw [rehashScanLine] at h
    exact absurd h (by simp)
  | succ k ih =>
    intro idx s s1 h
    rw [rehashScanLine] at h
    by_cases hv : s.table idx = 0
    · rw [if_pos hv] at h
      injection h with hok hs1
      subst hs1
      exact ⟨0, by omega, by omega, by omega, by simpa using hv, rfl⟩
    · rw [if_neg hv] at h
      simp only [] at h
      by_cases hw : clStep idx = last
      · rw [if_pos hw] at h
        exact absurd h (by simp)
      · rw [if_neg hw] at h
        obtain ⟨m, hmk, hnz, hwrap, hempty, hs1⟩ := ih h
        refine ⟨m + 1, by omega, ?_, ?_, ?_, ?_⟩
        · intro n hn
          match n with
          | 0 => simpa using hv
          | n + 1 =>
            rw [Function.iterate_succ_apply]
            exact hnz n (by omega)
        · intro n hn
          match n with
          | 0 => simpa using hw
          | n + 1 =>
            rw [show n + 1 + 1 = (n + 1) + 1 from rfl, Function.iterate_succ_apply]
            exact hwrap n (by omega)
        · rw [Function.iterate_succ_apply]
          exact hempty
        · rw [Function.iterate_succ_apply]
          exact hs1

theorem rehashScanLine_done_false_char {new_v last : Nat} :
    ∀ {k idx : Nat} {s s1 : LLMSSet},
      rehashScanLine new_v last k idx s = .done false s1 → s1 = s := by
  intro k
  induction k with
  | zero =>
    intro idx s s1 h
    rw [rehashScanLine] at h
    injection h with hok hs1
    exact hs1.symm
  | succ k ih =>
    intro idx s s1 h
    rw [rehashScanLine] at h
    by_cases hv : s.table idx = 0
    · rw [if_pos hv] at h
      exact absurd h (by simp)
    · rw [if_neg hv] at h
      simp only [] at h
      by_cases hw : clStep idx = last
      · rw [if_pos hw] at h
        exact absurd h (by simp)
      · rw [if_neg hw] at h
        exact ih h

theorem setSlot_place_fields (s : LLMSSet) (p v : Nat) :
    (setSlot s p v).data = s.data ∧ (setSlot s p v).bitmap2 = s.bitmap2 ∧
    (setSlot s p v).bitmap3 = s.bitmap3 ∧ SameCfg s (setSlot s p v) :=
  ⟨rfl, rfl, rfl, rfl, rfl, rfl, rfl, rfl, rfl, rfl⟩

theorem rehashLines_place (a b : Nat) (custom : Bool) (new_v : Nat) :
    ∀ (lines hr : Nat) (s : LLMSSet),
      (rehashLines a b custom new_v lines hr s).2 = s ∨
      ∃ p, s.table p = 0 ∧
        (rehashLines a b custom new_v lines hr s).2 = setSlot s p new_v := by
  intro lines
  induction lines with
  | zero =>
    intro hr s
    rw [rehashLines]
    rcases hscan : rehashScanLine new_v (firstIdx s hr) 8 (firstIdx s hr) s
      with ⟨ok, s1⟩ | s1
    · cases ok with
      | false =>
        left
        simp only []
        exact rehashScanLine_done_false_char hscan
      | true =>
        right
        obtain ⟨m, -, -, -, hempty, hs1⟩ := rehashScanLine_done_true_char hscan
        exact ⟨clStep^[m] (firstIdx s hr), hempty, hs1⟩
    · left
      simp only []
      exact (rehashScanLine_next_char hscan).1
  | succ l ih =>
    intro hr s
    rw [rehashLines]
    rcases hscan : rehashScanLine new_v (firstIdx s hr) 8 (firstIdx s hr) s
      with ⟨ok, s1⟩ | s1
    · cases ok with
      | false =>
        left
        simp only []
        exact rehashScanLine_done_false_char hscan
      | true =>
        right
        obtain ⟨m, -, -, -, hempty, hs1⟩ := rehashScanLine_done_true_char hscan
        exact ⟨clStep^[m] (firstIdx s hr), hempty, hs1⟩
    · have hs1 := (rehashScanLine_next_char hscan).1
      subst hs1
      exact ih (hashStep s1 custom a b hr) s1

theorem llmsset_rehash_bucket_place (s : LLMSSet) (d : Nat) :
    (llmsset_rehash_bucket s d).2 = s ∨
    ∃ p h, s.table p = 0 ∧
      (llmsset_rehash_bucket s d).2 = setSlot s p ((h &&& MASK_HASH) ||| d) := by
  rw [llmsset_rehash_bucket]
  rcases rehashLines_place (s.data d).1 (s.data d).2
      (s.hash_cb.isSome && get_custom_bucket s d)
      ((hashStep s (s.hash_cb.isSome && get_custom_bucket s d) (s.data d).1
          (s.data d).2 fnvSeed &&& MASK_HASH) ||| d)
      (s.threshold - 1)
      (hashStep s (s.hash_cb.isSome && get_custom_bucket s d) (s.data d).1
        (s.data d).2 fnvSeed) s with hA | ⟨p, hp, hA⟩
  · left
    exact hA
  · right
    exact ⟨p, hashStep s (s.hash_cb.isSome && get_custom_bucket s d) (s.data d).1
      (s.data d).2 fnvSeed, hp, hA⟩

theorem llmsset_rehash_bucket_mono (s : LLMSSet) (d : Nat) {q : Nat}
    (hq : s.table q ≠ 0) :
    (llmsset_rehash_bucket s d).2.table q = s.table q := by
  rcases llmsset_rehash_bucket_place s d with hA | ⟨p, h, hp, hA⟩
  · rw [hA]
  · rw [hA, setSlot_table]
    have hqp : q ≠ p := by
      intro he
      rw [he] at hq
      exact hq hp
    simp [hqp]

theorem llmsset_rehash_bucket_fields (s : LLMSSet) (d : Nat) :
    (llmsset_rehash_bucket s d).2.data = s.data ∧
    (llmsset_rehash_bucket s d).2.bitmap2 = s.bitmap2 ∧
    (llmsset_rehash_bucket s d).2.bitmap3 = s.bitmap3 ∧
    SameCfg s (llmsset_rehash_bucket s d).2 := by
  rcases llmsset_rehash_bucket_place s d with hA | ⟨p, h, hp, hA⟩ <;> rw [hA]
  · exact ⟨rfl, rfl, rfl, SameCfg_refl s⟩
  · exact ⟨rfl, rfl, rfl, rfl, rfl, rfl, rfl, rfl, rfl, rfl⟩

theorem rehashFold_fields (first : Nat) :
    ∀ (l : List Nat) (b : Bool) (s : LLMSSet),
      ((l.foldl (rehashBody first) (b, s)).2.data = s.data ∧
       (l.foldl (rehashBody first) (b, s)).2.bitmap2 = s.bitmap2 ∧
       (l.foldl (rehashBody first) (b, s)).2.bitmap3 = s.bitmap3 ∧
       SameCfg s (l.foldl (rehashBody first) (b, s)).2) := by
  intro l
  induction l with
  | nil =>
    intro b s
    exact ⟨rfl, rfl, rfl, SameCfg_refl s⟩
  | cons k t ih =>
    intro b s
    rw [List.foldl_cons, rehashBody]
    by_cases hb : (b, s).2.bitmap2 (first + k) = true
    · rw [if_pos hb]
      obtain ⟨f1, f2, f3, f4⟩ := llmsset_rehash_bucket_fields (b, s).2 (first + k)
      obtain ⟨g1, g2, g3, g4⟩ := ih ((b, s).1 &&
          (llmsset_rehash_bucket (b, s).2 (first + k)).1)
        (llmsset_rehash_bucket (b, s).2 (first + k)).2
      refine ⟨?_, ?_, ?_, ?_⟩
      · rw [g1]; exact f1
      · rw [g2]; exact f2
      · rw [g3]; exact f3
      · exact SameCfg_trans f4 g4
    · rw [if_neg hb]
      exact ih b s

theorem rehashFold_mono (first : Nat) :
    ∀ (l : List Nat) (b : Bool) (s : LLMSSet) (q : Nat), s.table q ≠ 0 →
      (l.foldl (rehashBody first) (b, s)).2.table q = s.table q := by
  intro l
  induction l with
  | nil =>
    intro b s q hq
    rfl
  | cons k t ih =>
    intro b s q hq
    rw [List.foldl_cons, rehashBody]
    by_cases hb : (b, s).2.bitmap2 (first + k) = true
    · rw [if_pos hb]
      have hm := llmsset_rehash_bucket_mono (b, s).2 (first + k) (q := q) hq
      have hY : (llmsset_rehash_bucket (b, s).2 (first + k)).2.table q ≠ 0 := by
        rw [hm]
        exact hq
      rw [ih _ _ q hY, hm]
    · rw [if_neg hb]
      exact ih b s q hq

theorem rehashFold_newvals (first : Nat) :
    ∀ (l : List Nat) (b : Bool) (s : LLMSSet) (q : Nat),
      (l.foldl (rehashBody first) (b, s)).2.table q ≠ 0 →
      s.table q ≠ 0 ∨ ∃ k, k ∈ l ∧ s.bitmap2 (first + k) = true ∧ ∃ h,
        (l.foldl (rehashBody first) (b, s)).2.table q
          = (h &&& MASK_HASH) ||| (first + k) := by
  intro l
  induction l with
  | nil =>
    intro b s q hq
    exact Or.inl hq
  | cons k t ih =>
    intro b s q hq
    rw [List.foldl_cons, rehashBody] at hq ⊢
    by_cases hb : (b, s).2.bitmap2 (first + k) = true
    · rw [if_pos hb] at hq ⊢
      rcases ih _ _ q hq with hY | ⟨k', hk', hbk', h, hval⟩
      · rcases llmsset_rehash_bucket_place (b, s).2 (first + k)
          with hP | ⟨p, h, hp, hP⟩
        · rw [hP] at hY
          exact Or.inl hY
        · by_cases hqp : q = p
          · right
            refine ⟨k, List.mem_cons_self k t, hb, h, ?_⟩
            rw [rehashFold_mono first t _ _ q hY, hP, setSlot_table]
            simp [hqp]
          · left
            rw [hP, setSlot_table] at hY
            simp only [if_neg hqp] at hY
            exact hY
      · refine Or.inr ⟨k', List.mem_cons_of_mem k hk', ?_, h, hval⟩
        rw [(llmsset_rehash_bucket_fields (b, s).2 (first + k)).2.1] at hbk'
        exact hbk'
    · rw [if_neg hb] at hq ⊢
      rcases ih b s q hq with h1 | ⟨k', hk', hbk', h, hval⟩
      · exact Or.inl h1
      · exact Or.inr ⟨k', List.mem_cons_of_mem k hk', hbk', h, hval⟩

theorem rehashSerialLoop_fields (s : LLMSSet) (first count : Nat) :
    (rehashSerialLoop s first count).2.data = s.data ∧
    (rehashSerialLoop s first count).2.bitmap2 = s.bitmap2 ∧
    (rehashSerialLoop s first count).2.bitmap3 = s.bitmap3 ∧
    SameCfg s (rehashSerialLoop s first count).2 := by
  rw [rehashSerialLoop_eq_fold]
  exact rehashFold_fields first (List.range count) true s

theorem rehashSerialLoop_newvals {s : LLMSSet} {first count q : Nat}
    (hq : (rehashSerialLoop s first count).2.table q ≠ 0) :
    s.table q ≠ 0 ∨ ∃ k, k < count ∧ s.bitmap2 (first + k) = true ∧ ∃ h,
      (rehashSerialLoop s first count).2.table q
        = (h &&& MASK_HASH) ||| (first + k) := by
  rw [rehashSerialLoop_eq_fold] at hq ⊢
  rcases rehashFold_newvals first (List.range count) true s q hq
    with h1 | ⟨k, hk, hbk, h, hval⟩
  · exact Or.inl h1
  · exact Or.inr ⟨k, List.mem_range.mp hk, hbk, h, hval⟩

theorem rehashSerialLoop_one (s : LLMSSet) (first : Nat)
    (hb : s.bitmap2 first = true) :
    rehashSerialLoop s first 1
      = ((llmsset_rehash_bucket s first).1, (llmsset_rehash_bucket s first).2) := by
  rw [rehashSerialLoop_eq_fold,
    show List.range 1 = [0] from rfl, List.foldl_cons, List.foldl_nil,
    rehashBody]
  simp [hb]

theorem firstIdx_lt_U64 {s : LLMSSet} (h0 : 0 < s.table_size)
    (hle : s.table_size ≤ 2 ^ 44)
    (hm : s.maskMode = true → s.mask = s.table_size - 1) (hr : Nat) :
    firstIdx s hr < U64 := by
  rw [firstIdx]
  split_ifs with hmm
  · rw [hm hmm]
    have h1 : hr &&& (s.table_size - 1) ≤ s.table_size - 1 := Nat.and_le_right
    have h2 : (2:Nat) ^ 44 < 2 ^ 64 := by norm_num
    rw [U64]
    omega
  · have h2 : (2:Nat) ^ 44 < 2 ^ 64 := by norm_num
    have h3 := Nat.mod_lt hr h0
    rw [U64]
    omega

theorem payloadMatches_data_congr {s t : LLMSSet} (h : t.data = s.data)
    (a b d : Nat) : payloadMatches t false a b d = payloadMatches s false a b d := by
  simp [payloadMatches, h]

theorem payloadMatches_false_of_ne {s : LLMSSet} {a b d : Nat}
    (h : s.data d ≠ (a, b)) : payloadMatches s false a b d = false := by
  rw [payloadMatches, if_neg (by simp)]
  by_cases h1 : (s.data d).1 = a
  · by_cases h2 : (s.data d).2 = b
    · exact absurd (Prod.ext h1 h2) h
    · simp [h2]
  · simp [h1]

theorem payloadMatches_self {s : LLMSSet} {a b i : Nat}
    (h : s.data i = (a, b)) : payloadMatches s false a b i = true := by
  rw [payloadMatches, if_neg (by simp), h]
  simp

theorem llmsset_mark_bitmap2 (t : LLMSSet) (j x : Nat) :
    ((llmsset_mark t j).2).bitmap2 x = (t.bitmap2 x || decide (x = j)) := by
  rw [llmsset_mark]
  by_cases hb : t.bitmap2 j = true
  · rw [if_pos hb]
    by_cases hx : x = j
    · subst hx
      simp [hb]
    · simp [hx]
  · rw [if_neg hb]
    show (if x = j then true else t.bitmap2 x) = (t.bitmap2 x || decide (x = j))
    by_cases hx : x = j
    · simp [hx]
    · simp [hx]

theorem llmsset_mark_fields (t : LLMSSet) (j : Nat) :
    ((llmsset_mark t j).2).table = t.table ∧
    ((llmsset_mark t j).2).data = t.data ∧
    ((llmsset_mark t j).2).bitmap3 = t.bitmap3 ∧
    SameCfg t ((llmsset_mark t j).2) := by
  rw [llmsset_mark]
  by_cases hb : t.bitmap2 j = true
  · rw [if_pos hb]
    exact ⟨rfl, rfl, rfl, SameCfg_refl t⟩
  · rw [if_neg hb]
    exact ⟨rfl, rfl, rfl, rfl, rfl, rfl, rfl, rfl, rfl, rfl⟩

theorem markAll_bitmap2 :
    ∀ (M : List Nat) (s : LLMSSet) (x : Nat),
      (markAll s M).bitmap2 x = (s.bitmap2 x || decide (x ∈ M)) := by
  intro M
  induction M with
  | nil =>
    intro s x
    simp [markAll]
  | cons j T ih =>
    intro s x
    show (markAll ((llmsset_mark s j).2) T).bitmap2 x = _
    rw [ih, llmsset_mark_bitmap2]
    simp [List.mem_cons, Bool.or_assoc]

theorem markAll_fields :
    ∀ (M : List Nat) (s : LLMSSet),
      (markAll s M).table = s.table ∧ (markAll s M).data = s.data ∧
      (markAll s M).bitmap3 = s.bitmap3 ∧ SameCfg s (markAll s M) := by
  intro M
  induction M with
  | nil =>
    intro s
    exact ⟨rfl, rfl, rfl, SameCfg_refl s⟩
  | cons j T ih =>
    intro s
    obtain ⟨f1, f2, f3, f4⟩ := llmsset_mark_fields s j
    obtain ⟨g1, g2, g3, g4⟩ := ih ((llmsset_mark s j).2)
    refine ⟨?_, ?_, ?_, ?_⟩
    · show (markAll ((llmsset_mark s j).2) T).table = s.table
      rw [g1, f1]
    · show (markAll ((llmsset_mark s j).2) T).data = s.data
      rw [g2, f2]
    · show (markAll ((llmsset_mark s j).2) T).bitmap3 = s.bitmap3
      rw [g3, f3]
    · show SameCfg s (markAll ((llmsset_mark s j).2) T)
      exact SameCfg_trans f4 g4

theorem rehashSerialLoop_mono (s : LLMSSet) (first count : Nat) {q : Nat}
    (hq : s.table q ≠ 0) :
    (rehashSerialLoop s first count).2.table q = s.table q := by
  rw [rehashSerialLoop_eq_fold]
  exact rehashFold_mono first (List.range count) true s q hq

theorem rehashScanLine_hit_lookup {a b new_v hash i : Nat}
    (hnv : new_v = hash ||| i) (hhash : hash &&& MASK_HASH = hash)
    (hi0 : i ≠ 0) (hi44 : i < 2 ^ 44) {hr : Nat} {s t tF : LLMSSet}
    {ctx : WorkerCtx}
    (h0 : 0 < s.table_size) (hle : s.table_size ≤ 2 ^ 44)
    (hm : s.maskMode = true → s.mask = s.table_size - 1)
    (Hmiss : ∀ q, s.table q ≠ 0 → ¬(hash = s.table q &&& MASK_HASH ∧
        payloadMatches s false a b (s.table q &&& MASK_INDEX) = true))
    (hdata : s.data i = (a, b))
    (hscan : rehashScanLine new_v (firstIdx s hr) 8 (firstIdx s hr) s
      = .done true t)
    (hext : ∀ q, t.table q ≠ 0 → tF.table q = t.table q)
    (hdF : tF.data = t.data)
    (hcfgF : SameCfg t tF) :
    scanLine a b false hash (firstIdx s hr) 8 (firstIdx s hr) 0 tF ctx
      = .done (.ok i false) tF ctx ∧ SameCfg s tF := by
  obtain ⟨m, hm8, hnz, hwrap, hempty, ht⟩ := rehashScanLine_done_true_char hscan
  have hcfg : SameCfg s t := by
    rw [ht]
    exact (setSlot_place_fields s _ _).2.2.2
  have hdt : t.data = s.data := by
    rw [ht]
    rfl
  have hdFs : tF.data = s.data := by
    rw [hdF, hdt]
  have hfiU : firstIdx s hr < U64 := firstIdx_lt_U64 h0 hle hm hr
  have htp : t.table (clStep^[m] (firstIdx s hr)) = new_v := by
    rw [ht, setSlot_table]
    simp
  have htpF : tF.table (clStep^[m] (firstIdx s hr)) = new_v := by
    rw [hext _ (by rw [htp, hnv]; exact lor_ne_zero_right hi0), htp]
  refine ⟨?_, SameCfg_trans hcfg hcfgF⟩
  apply scanLine_retrace_hit hm8
  · intro n hn
    have hne : clStep^[n] (firstIdx s hr) ≠ clStep^[m] (firstIdx s hr) :=
      clStep_iterate_inj hfiU (by omega) hm8 (by omega)
    have htn : t.table (clStep^[n] (firstIdx s hr))
        = s.table (clStep^[n] (firstIdx s hr)) := by
      rw [ht, setSlot_table]
      simp [hne]
    have htnF : tF.table (clStep^[n] (firstIdx s hr))
        = s.table (clStep^[n] (firstIdx s hr)) := by
      rw [hext _ (by rw [htn]; exact hnz n hn), htn]
    constructor
    · rw [htnF]
      exact hnz n hn
    · intro htag hpm
      exfalso
      apply Hmiss (clStep^[n] (firstIdx s hr)) (hnz n hn)
      rw [htnF] at htag hpm
      refine ⟨htag, ?_⟩
      rw [← payloadMatches_data_congr hdFs]
      exact hpm
  · exact hwrap
  · rw [htpF, hnv]
    exact lor_ne_zero_right hi0
  · rw [htpF, hnv, tag_lor_hash hhash hi44]
  · rw [htpF, hnv, tag_lor_index hhash hi44, payloadMatches_data_congr hdFs]
    exact payloadMatches_self hdata
  · rw [htpF, hnv, tag_lor_index hhash hi44]

theorem rehashLines_lookup_retrace {a b new_v hash i : Nat} {tF : LLMSSet}
    (hnv : new_v = hash ||| i) (hhash : hash &&& MASK_HASH = hash)
    (hi0 : i ≠ 0) (hi44 : i < 2 ^ 44) :
    ∀ {lines hr : Nat} {s t : LLMSSet} {ctx : WorkerCtx},
      0 < s.table_size → s.table_size ≤ 2 ^ 44 →
      (s.maskMode = true → s.mask = s.table_size - 1) →
      (∀ q, s.table q ≠ 0 →
        ¬(hash = s.table q &&& MASK_HASH ∧
          payloadMatches s false a b (s.table q &&& MASK_INDEX) = true)) →
      s.data i = (a, b) →
      rehashLines a b false new_v lines hr s = (true, t) →
      (∀ q, t.table q ≠ 0 → tF.table q = t.table q) →
      tF.data = t.data →
      SameCfg t tF →
      lookupLines a b false hash lines hr 0 tF ctx = ⟨.ok i false, tF, ctx⟩ := by
  intro lines
  induction lines with
  | zero =>
    intro hr s t ctx h0 hle hm Hmiss hdata hrun hext hdF hcfgF
    rw [rehashLines] at hrun
    rcases hscan : rehashScanLine new_v (firstIdx s hr) 8 (firstIdx s hr) s
      with ⟨ok, s1⟩ | s1
    · rw [hscan] at hrun
      simp only [] at hrun
      injection hrun with hok hs1
      subst hok
      subst hs1
      obtain ⟨hhit, hcfg⟩ := rehashScanLine_hit_lookup hnv hhash hi0 hi44 h0 hle
        hm Hmiss hdata hscan hext hdF hcfgF
      rw [lookupLines, firstIdx_congr hcfg, hhit]
    · rw [hscan] at hrun
      simp only [] at hrun
      injection hrun with h1 h2
      exact absurd h1 (by simp)
  | succ l ih =>
    intro hr s t ctx h0 hle hm Hmiss hdata hrun hext hdF hcfgF
    rw [rehashLines] at hrun
    rcases hscan : rehashScanLine new_v (firstIdx s hr) 8 (firstIdx s hr) s
      with ⟨ok, s1⟩ | s1
    · rw [hscan] at hrun
      simp only [] at hrun
      injection hrun with hok hs1
      subst hok
      subst hs1
      obtain ⟨hhit, hcfg⟩ := rehashScanLine_hit_lookup hnv hhash hi0 hi44 h0 hle
        hm Hmiss hdata hscan hext hdF hcfgF
      rw [lookupLines, firstIdx_congr hcfg, hhit]
    · rw [hscan] at hrun
      simp only [] at hrun
      obtain ⟨hs1, m, hm8, hnz, hwrap, hlast⟩ := rehashScanLine_next_char hscan
      subst hs1
      have hconcl := @ih (hashStep s1 false a b hr) s1 t ctx h0 hle hm Hmiss
        hdata hrun hext hdF hcfgF
      have hplace := rehashLines_place a b false new_v l
        (hashStep s1 false a b hr) s1
      rw [hrun] at hplace
      simp only [] at hplace
      have hcfgT : SameCfg s1 t := by
        rcases hplace with h | ⟨p, hp, h⟩
        · rw [h]
          exact SameCfg_refl s1
        · rw [h]
          exact (setSlot_place_fields s1 _ _).2.2.2
      have hcfg : SameCfg s1 tF := SameCfg_trans hcfgT hcfgF
      have hdt : t.data = s1.data := by
        rcases hplace with h | ⟨p, hp, h⟩ <;> rw [h] <;> rfl
      have hdFs : tF.data = s1.data := by
        rw [hdF, hdt]
      have hmono : ∀ q, s1.table q ≠ 0 → t.table q = s1.table q := by
        intro q hq
        rcases hplace with h | ⟨p, hp, h⟩
        · rw [h]
        · rw [h, setSlot_table]
          have hqp : q ≠ p := fun he => hq (he ▸ hp)
          simp [hqp]
      have hmonoF : ∀ q, s1.table q ≠ 0 → tF.table q = s1.table q := by
        intro q hq
        rw [hext q (by rw [hmono q hq]; exact hq), hmono q hq]
      rw [lookupLines, firstIdx_congr hcfg]
      have htargets : ∀ n, n < 8 →
          (∀ j, j < n → clStep^[j + 1] (firstIdx s1 hr) ≠ firstIdx s1 hr) →
          slotTargeted tF false a b hash i (clStep^[n] (firstIdx s1 hr)) := by
        intro n hn hvis
        have hnm : n ≤ m := by
          by_contra hgt
          exact hvis m (by omega) hlast
        have hnz2 := hnz n hnm
        have htn := hmonoF _ hnz2
        constructor
        · rw [htn]
          exact hnz2
        · intro htag hpm
          exfalso
          apply Hmiss _ hnz2
          rw [htn] at htag hpm
          refine ⟨htag, ?_⟩
          rw [← payloadMatches_data_congr hdFs]
          exact hpm
      rcases scanLine_retrace ⟨m, hm8, hwrap, hlast⟩ htargets with hA | hA
      · rw [hA]
        simp only []
        have hstep : hashStep tF false a b hr = hashStep s1 false a b hr := rfl
        rw [hstep]
        exact hconcl
      · rw [hA]

/-- C3: contrary to the claim, index 0 can be returned as a found entry.
After a GC `clear` + `rehash` of a fresh size-512 table, the rehash sweep
republishes the two reserved buckets 0 and 1 (their `bitmap2` bits are set by
`clear` itself), and a default lookup of the payload `(0, 0)` stored at index
0 then returns index 0 with `created = false` — a non-failure return of an
index below 2, where the claim allows 0 only as a failure sentinel and valid
returns only at indices at least 2. -/
theorem C3_return_zero_found :
    (llmsset_lookup (llmsset_rehash (llmsset_clear egTable512)).2
      (llmsset_clear_ctx egCtx) 0 0).out = .ok 0 false := by
  have h1 : llmsset_rehash (llmsset_clear egTable512)
      = rehashSerialLoop (llmsset_clear egTable512) 0
          (llmsset_clear egTable512).table_size := by
    rw [llmsset_rehash, llmsset_rehash_par, rehashParGo_eq_serial]
  have hts : (llmsset_clear egTable512).table_size = 2 + 510 := rfl
  have h3 : rehashSerialLoop (rehashSerialLoop (llmsset_clear egTable512) 0 2).2
      (0 + 2) 510 = (true, (rehashSerialLoop (llmsset_clear egTable512) 0 2).2) := by
    apply rehashSerialLoop_skip
    intro k hk
    rw [(rehashSerialLoop_fields (llmsset_clear egTable512) 0 2).2.1]
    show decide (0 + 2 + k < 2) = false
    simp only [decide_eq_false_iff_not]
    omega
  rw [h1, hts, rehashSerialLoop_append, h3]
  decide

/-- C4 counterexample: in the order the claim states (populate, mark, `clear`,
then `rehash`), the round trip fails: `clear` wipes the mark bits, the rehash
sweep restores nothing but the two reserved buckets, and the lookup of the
original payload `(7, 11)` re-creates the entry (`created = true`) instead of
finding it (`created = false`). -/
theorem C4_counterexample :
    (llmsset_lookup egTable512 egCtx 7 11).out = .ok 2 true ∧
    (llmsset_lookup (llmsset_rehash egC4Cleared).2
        (llmsset_clear_ctx (llmsset_lookup egTable512 egCtx 7 11).ctx) 7 11).out
      = .ok 2 true := by
  refine ⟨by decide, ?_⟩
  have h1 : llmsset_rehash egC4Cleared
      = rehashSerialLoop egC4Cleared 0 egC4Cleared.table_size := by
    rw [llmsset_rehash, llmsset_rehash_par, rehashParGo_eq_serial]
  have hts : egC4Cleared.table_size = 2 + 510 := by decide
  have h3 : rehashSerialLoop (rehashSerialLoop egC4Cleared 0 2).2 (0 + 2) 510
      = (true, (rehashSerialLoop egC4Cleared 0 2).2) := by
    apply rehashSerialLoop_skip
    intro k hk
    rw [(rehashSerialLoop_fields egC4Cleared 0 2).2.1]
    show decide (0 + 2 + k < 2) = false
    simp only [decide_eq_false_iff_not]
    omega
  rw [h1, hts, rehashSerialLoop_append, h3]
  decide

/-- C4 (amended): the GC round trip holds with the clear first: starting from
any quiesced table on the default hash path (no custom hash callback
registered), `clear`, then mark the set `M` of live payload indices with
`llmsset_mark`, then `rehash`; if the sweep succeeds, a default `lookup` of
the payload stored at any marked index `i ≥ 2` whose payload differs from the
payload of every other marked index and of the two reserved buckets returns
`(i, created = false)` and leaves the table unchanged.  (In the order the
claim states — mark the live slots, then `clear`, then `rehash` — the marks
are wiped and the entry is re-created instead of found.) -/
theorem C4_clear_mark_rehash_roundtrip {s : LLMSSet} {M : List Nat} {ok : Bool}
    {sR : LLMSSet} (ctx : WorkerCtx) (i a b : Nat)
    (h0 : 0 < s.table_size) (hle : s.table_size ≤ 2 ^ 44)
    (hmask : s.maskMode = true → s.mask = s.table_size - 1)
    (hcb : s.hash_cb = none)
    (hiM : i ∈ M) (hige2 : 2 ≤ i) (hilt : i < s.table_size)
    (hdata : s.data i = (a, b))
    (hdist : ∀ j, j < 2 ∨ j ∈ M → j ≠ i → s.data j ≠ (a, b))
    (hrun : llmsset_rehash (markAll (llmsset_clear s) M) = (ok, sR))
    (hok : ok = true) :
    llmsset_lookup sR ctx a b = ⟨.ok i false, sR, ctx⟩ := by
  subst hok
  have h1 : llmsset_rehash (markAll (llmsset_clear s) M)
      = rehashSerialLoop (markAll (llmsset_clear s) M) 0
          (markAll (llmsset_clear s) M).table_size := by
    rw [llmsset_rehash, llmsset_rehash_par, rehashParGo_eq_serial]
  have htsM : (markAll (llmsset_clear s) M).table_size = s.table_size :=
    (markAll_fields M (llmsset_clear s)).2.2.2.1
  have hsplit : s.table_size = i + (1 + (s.table_size - i - 1)) := by omega
  rw [h1, htsM, hsplit, rehashSerialLoop_append] at hrun
  simp only [Nat.zero_add] at hrun
  rw [rehashSerialLoop_append] at hrun
  have hb2P : (rehashSerialLoop (markAll (llmsset_clear s) M) 0 i).2.bitmap2
      = (markAll (llmsset_clear s) M).bitmap2 :=
    (rehashSerialLoop_fields (markAll (llmsset_clear s) M) 0 i).2.1
  have hbit : (rehashSerialLoop (markAll (llmsset_clear s) M) 0 i).2.bitmap2 i
      = true := by
    rw [hb2P, markAll_bitmap2]
    simp [hiM]
  rw [rehashSerialLoop_one _ _ hbit] at hrun
  simp only [] at hrun
  injection hrun with hflag hstate
  rw [Bool.and_eq_true, Bool.and_eq_true] at hflag
  have hq1 : (llmsset_rehash_bucket
      (rehashSerialLoop (markAll (llmsset_clear s) M) 0 i).2 i).1 = true :=
    hflag.2.1
  obtain ⟨B, hB⟩ : ∃ B, (llmsset_rehash_bucket
      (rehashSerialLoop (markAll (llmsset_clear s) M) 0 i).2 i).2 = B :=
    ⟨_, rfl⟩
  rw [hB] at hstate
  have hbr : llmsset_rehash_bucket
      (rehashSerialLoop (markAll (llmsset_clear s) M) 0 i).2 i = (true, B) := by
    rw [← hB, ← hq1]
  have hext : ∀ qq, B.table qq ≠ 0 → sR.table qq = B.table qq := by
    intro qq hqq
    rw [← hstate]
    exact rehashSerialLoop_mono _ _ _ hqq
  have hdFt : sR.data = B.data := by
    rw [← hstate]
    exact (rehashSerialLoop_fields B (i + 1) (s.table_size - i - 1)).1
  have hcfgF : SameCfg B sR := by
    rw [← hstate]
    exact (rehashSerialLoop_fields B (i + 1) (s.table_size - i - 1)).2.2.2
  have hcfgP : SameCfg (markAll (llmsset_clear s) M)
      (rehashSerialLoop (markAll (llmsset_clear s) M) 0 i).2 :=
    (rehashSerialLoop_fields (markAll (llmsset_clear s) M) 0 i).2.2.2
  have hcfgM : SameCfg (llmsset_clear s) (markAll (llmsset_clear s) M) :=
    (markAll_fields M (llmsset_clear s)).2.2.2
  have hdA : (rehashSerialLoop (markAll (llmsset_clear s) M) 0 i).2.data
      = s.data := by
    rw [(rehashSerialLoop_fields (markAll (llmsset_clear s) M) 0 i).1]
    exact (markAll_fields M (llmsset_clear s)).2.1
  have hcbA : (rehashSerialLoop (markAll (llmsset_clear s) M) 0 i).2.hash_cb
      = none := by
    rw [hcfgP.2.2.2.2.1, hcfgM.2.2.2.2.1]
    exact hcb
  rw [llmsset_rehash_bucket] at hbr
  rw [hcbA] at hbr
  simp only [Option.isSome_none, Bool.false_and] at hbr
  rw [hdA, hdata] at hbr
  simp only [] at hbr
  have htsA : (rehashSerialLoop (markAll (llmsset_clear s) M) 0 i).2.table_size
      = s.table_size := by
    rw [hcfgP.1, htsM]
  have hi44 : i < 2 ^ 44 := lt_of_lt_of_le hilt hle
  have hHmiss : ∀ q,
      (rehashSerialLoop (markAll (llmsset_clear s) M) 0 i).2.table q ≠ 0 →
      ¬(hashStep (rehashSerialLoop (markAll (llmsset_clear s) M) 0 i).2 false a b
            fnvSeed &&& MASK_HASH
          = (rehashSerialLoop (markAll (llmsset_clear s) M) 0 i).2.table q
             &&& MASK_HASH ∧
        payloadMatches (rehashSerialLoop (markAll (llmsset_clear s) M) 0 i).2
            false a b
            ((rehashSerialLoop (markAll (llmsset_clear s) M) 0 i).2.table q
              &&& MASK_INDEX)
          = true) := by
    intro q hq
    rintro ⟨-, hpm⟩
    rcases rehashSerialLoop_newvals hq with hz | ⟨k, hki, hbk, h, hval⟩
    · apply hz
      rw [(markAll_fields M (llmsset_clear s)).1]
      rfl
    · have hk44 : 0 + k < 2 ^ 44 := by
        have h44 : (2:Nat) ^ 44 = 17592186044416 := by norm_num
        omega
      rw [hval, tag_lor_index (land_maskHash_idem h) hk44] at hpm
      rw [payloadMatches_data_congr hdA] at hpm
      simp only [Nat.zero_add] at hpm
      rw [markAll_bitmap2] at hbk
      simp only [Nat.zero_add] at hbk
      rw [Bool.or_eq_true] at hbk
      have hk2M : k < 2 ∨ k ∈ M := by
        rcases hbk with hbk | hbk
        · left
          have hdec : decide (k < 2) = true := hbk
          exact of_decide_eq_true hdec
        · right
          exact of_decide_eq_true hbk
      have hne : k ≠ i := by omega
      rw [payloadMatches_false_of_ne (hdist k hk2M hne)] at hpm
      exact Bool.false_ne_true hpm
  rw [llmsset_lookup, llmsset_lookup2]
  have hcfgB : SameCfg (rehashSerialLoop (markAll (llmsset_clear s) M) 0 i).2
      B := by
    rw [← hB]
    exact (llmsset_rehash_bucket_fields
      (rehashSerialLoop (markAll (llmsset_clear s) M) 0 i).2 i).2.2.2
  have hcfgR : SameCfg (rehashSerialLoop (markAll (llmsset_clear s) M) 0 i).2
      sR := SameCfg_trans hcfgB hcfgF
  have hstep : hashStep sR false a b fnvSeed
      = hashStep (rehashSerialLoop (markAll (llmsset_clear s) M) 0 i).2 false a b
          fnvSeed := rfl
  rw [hstep, hcfgR.2.1]
  exact rehashLines_lookup_retrace rfl
    (land_maskHash_idem (hashStep
      (rehashSerialLoop (markAll (llmsset_clear s) M) 0 i).2 false a b fnvSeed))
    (by omega) hi44
    (by rw [htsA]; exact h0) (by rw [htsA]; exact hle)
    (fun hm2 => by
      rw [hcfgP.2.2.2.1, hcfgM.2.2.2.1, htsA]
      exact hmask (hcfgM.2.2.1.symm.trans (hcfgP.2.2.1.symm.trans hm2)))
    hHmiss (by rw [hdA]; exact hdata) hbr hext hdFt hcfgF

theorem C4_clear_mark_rehash_roundtrip_witness :
    (llmsset_rehash (markAll (llmsset_clear
        (writeData egTableRoundtrip 3 9 13)) [2, 3])).1 = true ∧
    (llmsset_lookup
        (llmsset_rehash (markAll (llmsset_clear
          (writeData egTableRoundtrip 3 9 13)) [2, 3])).2
        egCtx 7 11).out = .ok 2 false ∧
    (llmsset_lookup
        (llmsset_rehash (markAll (llmsset_clear
          (writeData egTableRoundtrip 3 9 13)) [2, 3])).2
        egCtx 9 13).out = .ok 3 false := by
  have hok : (llmsset_rehash (markAll (llmsset_clear
      (writeData egTableRoundtrip 3 9 13)) [2, 3])).1 = true := by decide
  have hrun : llmsset_rehash (markAll (llmsset_clear
      (writeData egTableRoundtrip 3 9 13)) [2, 3])
      = (true,
         (llmsset_rehash (markAll (llmsset_clear
           (writeData egTableRoundtrip 3 9 13)) [2, 3])).2) := by
    calc llmsset_rehash (markAll (llmsset_clear
          (writeData egTableRoundtrip 3 9 13)) [2, 3])
        = ((llmsset_rehash (markAll (llmsset_clear
            (writeData egTableRoundtrip 3 9 13)) [2, 3])).1,
           (llmsset_rehash (markAll (llmsset_clear
             (writeData egTableRoundtrip 3 9 13)) [2, 3])).2)
          := rfl
      _ = _ := by rw [hok]
  have hmain1 := @C4_clear_mark_rehash_roundtrip
    (writeData egTableRoundtrip 3 9 13) [2, 3] true
    (llmsset_rehash (markAll (llmsset_clear
      (writeData egTableRoundtrip 3 9 13)) [2, 3])).2 egCtx 2 7 11
    (by decide) (by decide) (by decide) rfl (by decide) (by decide) (by decide)
    (by decide)
    (fun j hj hne => by
      rcases hj with h | h
      · match j, h with
        | 0, _ => decide
        | 1, _ => decide
        | n + 2, h => exact absurd h (by omega)
      · rcases List.mem_cons.mp h with h2 | h2
        · exact absurd h2 hne
        · rw [List.mem_singleton] at h2
          subst h2
          decide)
    hrun rfl
  have hmain2 := @C4_clear_mark_rehash_roundtrip
    (writeData egTableRoundtrip 3 9 13) [2, 3] true
    (llmsset_rehash (markAll (llmsset_clear
      (writeData egTableRoundtrip 3 9 13)) [2, 3])).2 egCtx 3 9 13
    (by decide) (by decide) (by decide) rfl (by decide) (by decide) (by decide)
    (by decide)
    (fun j hj hne => by
      rcases hj with h | h
      · match j, h with
        | 0, _ => decide
        | 1, _ => decide
        | n + 2, h => exact absurd h (by omega)
      · rcases List.mem_cons.mp h with h2 | h2
        · subst h2
          decide
        · rw [List.mem_singleton] at h2
          exact absurd h2 hne)
    hrun rfl
  refine ⟨hok, ?_, ?_⟩
  · rw [hmain1]
  · rw [hmain2]

/-- C1 counterexample: with a custom hash callback registered, two completed
equal-payload lookups on a quiesced table return different indices, both with
`created = true`: the default-path insert of `(7, 11)` clears the occupancy
bit of its index 2 (`set_custom_bucket(dbs, cidx, 0)` runs whenever a hash
callback is registered), an intervening custom-path insert of `(100, 200)` is
handed payload slot 2 again and overwrites it, and the next lookup of
`(7, 11)` misses and creates index 3. -/
theorem C1_counterexample :
    (llmsset_lookup egTableCustom egCtx 7 11).out = .ok 2 true ∧
    (llmsset_lookupc (llmsset_lookup egTableCustom egCtx 7 11).st
        (llmsset_lookup egTableCustom egCtx 7 11).ctx 100 200).out
      = .ok 2 true ∧
    (llmsset_lookup
        (llmsset_lookupc (llmsset_lookup egTableCustom egCtx 7 11).st
          (llmsset_lookup egTableCustom egCtx 7 11).ctx 100 200).st
        (llmsset_lookupc (llmsset_lookup egTableCustom egCtx 7 11).st
          (llmsset_lookup egTableCustom egCtx 7 11).ctx 100 200).ctx 7 11).out
      = .ok 3 true := by
  exact ⟨by decide, by decide, by decide⟩
